import Mathlib

/-!
Verification of the cable-cell simulation core (Arbor fork).

This file contains a shallow embedding, in Lean 4, of the parts of the
source relevant to the checked claims:

* `src/arbor/connection.hpp`            — spike-event generation (`make_event`);
* `src/arbor/fvm_lowered_cell_impl.hpp` — the integration loop of
  `fvm_lowered_cell_impl::integrate` (stepping, event delivery, the
  waveform-relaxation outer loop);
* `src/arbor/fvm_layout.cpp`            — CV-geometry `append`, the CV
  discretization pass (face conductance, zero-area CV initial values),
  point-mechanism coalescing, and the concentration-writer overlap check
  of `fvm_build_mechanism_data`.

Real (`double`) quantities are modelled as rationals (`ℚ`), so all
statements are exact where the C++ code is subject to rounding.
Backend routines that live outside the given sources (event-stream
cursor operations, `update_time_to`, the embedding integrals,
`mcable_map::insert`) are modelled from the specification text; each
such definition carries a doc comment saying so.
-/

namespace Arbor

/-! ## Connections and spikes (`src/arbor/connection.hpp`)

`connection` carries a global source id, a local destination id, a
weight and a delay.  `spike` carries a source id and a time.  These are
the fields used by `make_event`; identifiers are modelled as pairs of
naturals (gid, lid). -/

structure connection where
  source : ℕ × ℕ
  destination : ℕ
  weight : ℚ
  delay : ℚ
  deriving DecidableEq, Repr

structure spike where
  source : ℕ × ℕ
  time : ℚ
  deriving DecidableEq, Repr

structure spike_event where
  target : ℕ
  time : ℚ
  weight : ℚ
  deriving DecidableEq, Repr

/-- Definition of `make_event` from `connection.hpp`:
`return {c.destination, s.time + c.delay, c.weight};`. -/
def make_event (c : connection) (s : spike) : spike_event :=
  { target := c.destination, time := s.time + c.delay, weight := c.weight }

/-! ## Waveform-relaxation outer loop (`fvm_lowered_cell_impl::integrate`)

The source wraps the per-step integration sweep in an outer loop

    int wr_max = 1;
    auto eps = 1e-7;
    for (int wr_it = 0; wr_it < wr_max; wr_it++) {
        ...
        auto max_err = 0.;       // reset, and never assigned afterwards
        while (remaining_steps) { ... full per-step sweep ... }
        if ((wr_it > 1 && max_err < eps) or wr_max == 1 || wr_it == wr_max) break;
        trace_prev = trace; trace = {}; ... restore saved state ...
    }

`wr_max` is hard-coded to `1` and `max_err` is initialised to `0` at the
top of every iteration and never written again, so the break condition
never consults any voltage data.  Recorded traces (`trace_prev`) are
consulted only in sweeps with `wr_it > 0` (the `else` branch of the
`wr_it == 0` test at `step == 0`). -/

def wr_max : ℕ := 1

/-- Tolerance `eps` from the source: `auto eps = 1e-7;`. -/
def wrEps : ℚ := 1 / 10 ^ 7

/-- The `break` condition of the outer loop, verbatim:
`(wr_it > 1 && max_err < eps) or wr_max == 1 || wr_it == wr_max`. -/
def wrBreakCond (wr_it : ℕ) (max_err : ℚ) : Bool :=
  (decide (1 < wr_it) && decide (max_err < wrEps)) || decide (wr_max = 1)
    || decide (wr_it = wr_max)

/-- The indices `wr_it` of the sweeps the outer loop actually executes.
`vdelta n` is the max-abs voltage delta between sweeps `n` and `n+1`
(the quantity the specification says controls termination); it is a
parameter so that theorems can quantify over it, and the body ignores it
exactly because the source never computes it: the `max_err` fed to the
break condition is the constant `0` (`auto max_err = 0.;`, never
reassigned).  The fuel argument dominates the loop bound `wr_max`. -/
def wrLoop (vdelta : ℕ → ℚ) : ℕ → ℕ → List ℕ
  | 0, _ => []
  | fuel + 1, wr_it =>
    if wr_it < wr_max then
      wr_it :: (if wrBreakCond wr_it 0 then [] else wrLoop vdelta fuel (wr_it + 1))
    else []

/-- Sweeps executed by one call to `integrate` (fuel `wr_max + 1` is
enough since `wr_it` increases by one per iteration). -/
def wrExecutedSweeps (vdelta : ℕ → ℚ) : List ℕ :=
  wrLoop vdelta (wr_max + 1) 0

/-- Number of full per-step sweeps executed. -/
def wrSweepCount (vdelta : ℕ → ℚ) : ℕ :=
  (wrExecutedSweeps vdelta).length

/-- Whether sweep `wr_it` reads recorded peer-voltage traces: the source
rebinds `ppack.vec_v_peer` to `trace_prev` only in the branch guarded by
`wr_it == 0 ? ... : ...`, i.e. only for `wr_it > 0`. -/
def wrReplayActive (wr_it : ℕ) : Bool :=
  decide (0 < wr_it)

/-! ## The integration step loop (`fvm_lowered_cell_impl::integrate`)

The per-step sweep of `integrate`, for a single integration domain (the
source keeps per-cell time arrays; cells of one domain share the same
time, cf. `assert_tmin`).  Per step the source executes, in order:

    state_->deliverable_events.mark_until_after(state_->time);
    state_->zero_currents();
    for (auto& m: mechanisms_) { m->deliver_events(events); m->update_current(); }
    state_->deliverable_events.drop_marked_events();
    state_->update_time_to(dt_max, tfinal);
    state_->deliverable_events.event_time_if_before(state_->time_to);
    state_->set_dt();
    ... stimuli, samples ...
    matrix_.assemble(...); matrix_.solve(state_->voltage);
    ... update_state, ions, threshold test, post events ...
    std::swap(state_->time_to, state_->time);

so events marked at the top of the step (those with `time ≤ state.time`)
are delivered before the matrix solve of the same step; `time_to` is
fixed after delivery and before the solve.  The physical state (voltage,
mechanism state, …) is abstracted as a value of type `α` transformed
once per step by a given function `upd`. -/

structure deliverable_event where
  time : ℚ
  weight : ℚ
  deriving DecidableEq, Repr

structure IntState (α : Type) where
  time : ℚ
  events : List deliverable_event
  phys : α

/-- One step of the integration loop, as a record: its start time, its
end time `time_to`, and the events delivered before its matrix solve. -/
structure StepRec where
  tStart : ℚ
  tTo : ℚ
  delivered : List deliverable_event
  deriving DecidableEq, Repr

/-- Step count `dt_steps` from the source:
`return t0>=t1? 0: 1+(unsigned)((t1-t0)/dt);` (the cast truncates the
positive quotient, i.e. takes the floor). -/
def dt_steps (t0 t1 dt : ℚ) : ℕ :=
  if t1 ≤ t0 then 0 else 1 + (⌊(t1 - t0) / dt⌋).toNat

/-- Modelled from the spec (backend `event_stream`, not under `src/`):
the earliest staged event time; the stream is time-sorted, so its head
is the minimum. -/
def nextEventTime (es : List deliverable_event) : Option ℚ :=
  (es.map (fun e => e.time)).min?

/-- Modelled from the spec (backend `event_stream.event_time_if_before`,
not under `src/`): clamp the integration endpoint to the earliest
pending event time when that is strictly before it, so no event is
skipped. -/
def clampTimeTo (t1 : ℚ) (next : Option ℚ) : ℚ :=
  match next with
  | none => t1
  | some te => if te < t1 then te else t1

/-- One full step of the `while (remaining_steps)` loop.  Events with
`time ≤ state.time` are marked (`mark_until_after`, inclusive upper
bound, modelled from the spec) and delivered before the solve; then
`time_to = min(time + dt_max, tfinal)` (`update_time_to`, modelled from
the spec) clamped by the earliest remaining event time; the physical
state is advanced by `upd`; finally `time ← time_to`. -/
def stepOnce {α : Type} (dt_max tfinal : ℚ) (upd : α → α) (s : IntState α) :
    IntState α × StepRec :=
  let delivered := s.events.filter (fun e => decide (e.time ≤ s.time))
  let rest := s.events.filter (fun e => !(decide (e.time ≤ s.time)))
  let t1 := min (s.time + dt_max) tfinal
  let tTo := clampTimeTo t1 (nextEventTime rest)
  (⟨tTo, rest, upd s.phys⟩, ⟨s.time, tTo, delivered⟩)

/-- Exactly `n` iterations of the `while (remaining_steps)` loop. -/
def runSteps {α : Type} (dt_max tfinal : ℚ) (upd : α → α) :
    ℕ → IntState α → IntState α × List StepRec
  | 0, s => (s, [])
  | n + 1, s =>
    let p := stepOnce dt_max tfinal upd s
    let q := runSteps dt_max tfinal upd n p.1
    (q.1, p.2 :: q.2)

/-- The stepping loop of `integrate`: `remaining_steps` is initialised
with `dt_steps(tmin_, tfinal, dt_max)`; when it reaches zero, `tmin_` is
set to the current cell time and `remaining_steps` is recomputed; the
loop exits when the recomputed value is zero.  `fuel` bounds the number
of recomputations. -/
def integrateLoop {α : Type} (dt_max tfinal : ℚ) (upd : α → α) :
    ℕ → IntState α → IntState α × List StepRec
  | 0, s => (s, [])
  | fuel + 1, s =>
    let n := dt_steps s.time tfinal dt_max
    if n = 0 then (s, [])
    else
      let p := runSteps dt_max tfinal upd n s
      let q := integrateLoop dt_max tfinal upd fuel p.1
      (q.1, p.2 ++ q.2)

structure IntegrateResult (α : Type) where
  records : List StepRec
  final : IntState α
  reportedTime : ℚ

/-- Model of `fvm_lowered_cell_impl::integrate(tfinal, dt_max, staged_events, …)`.
The waveform-relaxation outer loop executes its body exactly once
(`wr_max = 1`, see `wrExecutedSweeps_eq`), so `integrate` is a single
pass of the stepping loop followed by `set_tmin(tfinal)`; `time()`
reports `tmin_`. -/
def integrate {α : Type} (tfinal dt_max : ℚ) (upd : α → α) (fuel : ℕ)
    (t0 : ℚ) (staged : List deliverable_event) (phys : α) : IntegrateResult α :=
  let p := integrateLoop dt_max tfinal upd fuel ⟨t0, staged, phys⟩
  ⟨p.2, p.1, tfinal⟩

/-- Events delivered over a sequence of steps, in delivery order. -/
def allDelivered (rs : List StepRec) : List deliverable_event :=
  (rs.map (fun r => r.delivered)).flatten

/-- Every event delivered in the steps `rs` run from state `s` was
staged in `s`, and every staged event is either delivered or still
pending afterwards. -/
def Conserves {α : Type} (s : IntState α) (q : IntState α × List StepRec) : Prop :=
  ∀ e ∈ s.events, e ∈ allDelivered q.2 ∨ e ∈ q.1.events

/-- Completeness of event delivery: any staged event with time strictly
below the end time of some step is delivered during that step or an
earlier one — hence before that step's matrix solve. -/
def DeliveryComplete (staged : List deliverable_event) (rs : List StepRec) : Prop :=
  ∀ pre r post, rs = pre ++ r :: post → ∀ e ∈ staged, e.time < r.tTo →
    e ∈ allDelivered (pre ++ [r])

/-! ## Zero-area CV initial values (`fvm_cv_discretize`, `fvm_layout.cpp`)

The per-CV loop of `fvm_cv_discretize` accumulates, for CV `i`, the
area and the area-integrals of initial membrane potential and
temperature, then executes (with `p = cv_parent[i]`):

    if (D.cv_area[i]>0) {
      D.init_membrane_potential[i] /= D.cv_area[i];
      D.temperature_K[i] /= D.cv_area[i];
      if (p!=-1 && D.geometry.cv_parent[p]==-1 && D.cv_area[p]==0) {
        D.init_membrane_potential[p] = D.init_membrane_potential[i];
        D.temperature_K[p] = D.temperature_K[i];
      }
    }
    else if (p!=-1) {
      D.init_membrane_potential[i] = D.init_membrane_potential[p];
      D.temperature_K[i] = D.temperature_K[p];
    }

`vInt`/`tInt` below stand for the accumulated area-integrals
`Σ_cables ∫ v·dA` and `Σ_cables ∫ T·dA` (the embedding integrals are
not under `src/`; they only feed this pass, whose branching is what the
claim is about).  CVs are processed in increasing index order. -/

structure DiscVT where
  v : List ℚ
  t : List ℚ
  deriving DecidableEq, Repr

/-- The body of the per-CV loop of `fvm_cv_discretize` for the initial
membrane potential and temperature. -/
def processCV (cvParent : List ℤ) (area : List ℚ) (st : DiscVT) (i : ℕ) : DiscVT :=
  let p : ℤ := cvParent.getD i (-1)
  if 0 < area.getD i 0 then
    let v1 := st.v.set i (st.v.getD i 0 / area.getD i 0)
    let t1 := st.t.set i (st.t.getD i 0 / area.getD i 0)
    if p ≠ -1 ∧ cvParent.getD p.toNat (-1) = -1 ∧ area.getD p.toNat 0 = 0 then
      ⟨v1.set p.toNat (v1.getD i 0), t1.set p.toNat (t1.getD i 0)⟩
    else ⟨v1, t1⟩
  else
    if p ≠ -1 then
      ⟨st.v.set i (st.v.getD p.toNat 0), st.t.set i (st.t.getD p.toNat 0)⟩
    else st

/-- The initial-potential/temperature pass of `fvm_cv_discretize`. -/
def fvm_cv_vt (cvParent : List ℤ) (area vInt tInt : List ℚ) : DiscVT :=
  (List.range cvParent.length).foldl (processCV cvParent area) ⟨vInt, tInt⟩

/-! ## Face conductance (`fvm_cv_discretize`, `fvm_layout.cpp`)

For a non-root CV `i` with parent `p` the source computes

    msize_t bid = cv_cables.front().branch;
    double parent_refpt = 0;
    double cv_refpt = 1;
    if (cv_cables.size()==1) cv_refpt = 0.5*(front.prox_pos+front.dist_pos);
    if (parent_cables.size()==1) {
      // A trivial parent CV with a zero-length cable might not
      // be on the same branch.
      if (parent_cable.branch==bid)
        parent_refpt = 0.5*(parent_cable.prox_pos+parent_cable.dist_pos);
    }
    mcable span{bid, parent_refpt, cv_refpt};
    double resistance = embedding.integrate_ixa(span, axial_resistivity[bid]);
    D.face_conductance[i] = 100/resistance; // 100 scales to µS.

`embedding.integrate_ixa` (not under `src/`) integrates
`ρ_a·dℓ/(π r²)` along the span; it is modelled from the spec as the
difference `F bid b − F bid a` of a given cumulative integral `F`. -/

structure mcable where
  branch : ℕ
  prox_pos : ℚ
  dist_pos : ℚ
  deriving DecidableEq, Repr

def cableMid (c : mcable) : ℚ := (c.prox_pos + c.dist_pos) / 2

/-- The child CV's reference point: starts at `1`, replaced by the cable
midpoint when the CV is a single cable (`cv_cables.size()==1`). -/
def cv_refpt (front : mcable) (rest : List mcable) : ℚ :=
  if rest = [] then cableMid front else 1

/-- The parent CV's reference point per the source: starts at `0`,
replaced by the midpoint only for a single-cable parent *on the same
branch* (`parent_cable.branch==bid`). -/
def parent_refpt (bid : ℕ) : List mcable → ℚ
  | [pc] => if pc.branch = bid then cableMid pc else 0
  | _ => 0

/-- Modelled from the spec: the claim's parent reference point — the
cable midpoint whenever the parent consists of a single cable, with no
condition on which branch that cable lies on. -/
def parent_refpt_claim (bid : ℕ) : List mcable → ℚ
  | [pc] => cableMid pc
  | _ => 0

/-- The reference-point selection and conductance formula of the
source, for a non-root CV given its cable list and its parent's.
`F b x` is the cumulative axial-resistance integral `∫₀ˣ ρ_a dℓ/(π r²)`
on branch `b` (modelled from the spec; not under `src/`). -/
def face_conductance (F : ℕ → ℚ → ℚ) : List mcable → List mcable → ℚ
  | [], _ => 0
  | front :: rest, parent_cables =>
    100 / (F front.branch (cv_refpt front rest)
            - F front.branch (parent_refpt front.branch parent_cables))

/-- Modelled from the spec: the conductance that the claim's
reference-point rule produces. -/
def face_conductance_spec (F : ℕ → ℚ → ℚ) : List mcable → List mcable → ℚ
  | [], _ => 0
  | front :: rest, parent_cables =>
    100 / (F front.branch (cv_refpt front rest)
            - F front.branch (parent_refpt_claim front.branch parent_cables))

/-! ## Point-mechanism coalescing (`fvm_build_mechanism_data`, `fvm_layout.cpp`)

Synapse instances `(cv, param_values, target)` are sorted by
(CV, parameter vector lexicographic, target index) — the source sorts a
permutation `cv_order` with a strict comparator — and then folded:

    const synapse_instance* prev = nullptr;
    for (auto i: cv_order) {
      const auto& in = inst_list[i];
      if (coalesce && prev && prev->cv==in.cv && cmp_inst_param(*prev, in)==0) {
        ++config.multiplicity.back();
      } else {
        config.cv.push_back(in.cv);
        if (coalesce) config.multiplicity.push_back(1);
        for (j) config.param_values[j].second.push_back(...);
      }
      config.target.push_back(in.target);
      prev = &in;
    }

`param_rows` below is the per-entry row view of the column-wise
`param_values` table. -/

structure synapse_instance where
  cv : ℕ
  param_values : List ℚ
  target : ℕ
  deriving DecidableEq, Repr

/-- Comparator `cmp_inst_param`: lexicographic three-way comparison of the
parameter vectors (the source walks the `n_param` entries of both). -/
def cmp_inst_param : List ℚ → List ℚ → Ordering
  | [], _ => .eq
  | _ :: _, [] => .eq
  | a :: as, b :: bs =>
    if a < b then .lt
    else if b < a then .gt
    else cmp_inst_param as bs

/-- The strict comparator passed to the sort of `cv_order`. -/
def synLt (a b : synapse_instance) : Bool :=
  if a.cv < b.cv then true
  else if b.cv < a.cv then false
  else
    match cmp_inst_param a.param_values b.param_values with
    | .lt => true
    | .gt => false
    | .eq => decide (a.target < b.target)

structure point_config where
  cv : List ℕ
  multiplicity : List ℕ
  param_rows : List (List ℚ)
  target : List ℕ
  deriving DecidableEq, Repr

/-- Increment of the last multiplicity entry, `++config.multiplicity.back()`. -/
def bumpLast : List ℕ → List ℕ
  | [] => []
  | [x] => [x + 1]
  | x :: xs => x :: bumpLast xs

/-- One iteration of the coalescing loop; the accumulator carries the
configuration built so far and `prev`. -/
def coalesce_step (coalesce : Bool)
    (acc : point_config × Option synapse_instance) (inst : synapse_instance) :
    point_config × Option synapse_instance :=
  let cfg := acc.1
  let merge := coalesce &&
    (match acc.2 with
     | some prev => decide (prev.cv = inst.cv) &&
         decide (cmp_inst_param prev.param_values inst.param_values = .eq)
     | none => false)
  if merge then
    ({ cfg with multiplicity := bumpLast cfg.multiplicity,
                target := cfg.target ++ [inst.target] }, some inst)
  else
    ({ cv := cfg.cv ++ [inst.cv],
       multiplicity := if coalesce then cfg.multiplicity ++ [1] else cfg.multiplicity,
       param_rows := cfg.param_rows ++ [inst.param_values],
       target := cfg.target ++ [inst.target] }, some inst)

/-- The coalescing loop over the (sorted) instance list. -/
def coalesce_fold (coalesce : Bool) (insts : List synapse_instance) : point_config :=
  (insts.foldl (coalesce_step coalesce) (⟨[], [], [], []⟩, none)).1

/-- The per-entry (CV, parameter-vector) view of a point configuration. -/
def zipped (cfg : point_config) : List (ℕ × List ℚ) :=
  cfg.cv.zip cfg.param_rows

/-- Strict order on entries: by CV, then by parameter vector. -/
def entryKeyLt (x y : ℕ × List ℚ) : Prop :=
  x.1 < y.1 ∨ (x.1 = y.1 ∧ cmp_inst_param x.2 y.2 = .lt)

/-! ## Concentration-writer overlap check (`fvm_build_mechanism_data`)

For every density mechanism writing an ion's internal (resp. external)
concentration, the source inserts each cable of the mechanism's support
into a per-ion mask and throws on failure:

    for (auto c: support) {
      bool ok = init_iconc_mask[ion].insert(c.first, 0.);
      if (!ok) throw cable_cell_error("overlapping ion concentration writing mechanism "+name);
    }

`mcable_map::insert` (not under `src/`) fails exactly when the inserted
cable overlaps a cable already in the map; per the spec this is the
"overlapping concentration-writer regions on the same ion" error.  We
model one ion's mask; masks of distinct ions and the internal/external
masks are independent copies of the same computation. -/

/-- Modelled from the spec: two cables intersect when they lie on the
same branch and their position ranges meet. -/
def cablesIntersect (a b : mcable) : Bool :=
  decide (a.branch = b.branch) && decide (a.prox_pos ≤ b.dist_pos) &&
    decide (b.prox_pos ≤ a.dist_pos)

/-- Modelled from the spec: `mcable_map::insert` — fails (`none`) when
the new cable intersects an entry already present. -/
def insertMask (mask : List mcable) (c : mcable) : Option (List mcable) :=
  if mask.any (fun m => cablesIntersect m c) then none else some (mask ++ [c])

/-- Insert every cable of one writer mechanism's support, aborting at
the first failure (the source throws there). -/
def insertSupport : List mcable → List mcable → Option (List mcable)
  | mask, [] => some mask
  | mask, c :: cs =>
    match insertMask mask c with
    | none => none
    | some mask' => insertSupport mask' cs

/-- The whole per-ion mask construction over the supports of the writer
mechanisms, in paint order. -/
def buildConcMask : List mcable → List (List mcable) → Option (List mcable)
  | mask, [] => some mask
  | mask, s :: ss =>
    match insertSupport mask s with
    | none => none
    | some mask' => buildConcMask mask' ss

/-! ## CV-geometry `append` (`fvm_layout.cpp`)

    ARB_ARBOR_API cv_geometry& append(cv_geometry& geom, const cv_geometry& right) {
        if (!right.n_cell()) return geom;
        if (!geom.n_cell()) { geom = right; return geom; }
        auto geom_n_cv = geom.size();
        auto geom_n_cell = geom.n_cell();
        append(geom.cv_cables, right.cv_cables);
        append_divs(geom.cv_cables_divs, right.cv_cables_divs);
        append_offset(geom.cv_parent, geom_n_cv, right.cv_parent);
        append_offset(geom.cv_children, geom_n_cv, right.cv_children);
        append_divs(geom.cv_children_divs, right.cv_children_divs);
        append_offset(geom.cv_to_cell, geom_n_cell, right.cv_to_cell);
        append_divs(geom.cell_cv_divs, right.cell_cv_divs);
        append(geom.branch_cv_map, right.branch_cv_map);
        return geom;
    }

with `impl::append_offset` pushing `x+1==0 ? x : offset+x` (preserving
the `npos` value `-1`) and `impl::append_divs` appending the offset
tail of the right division vector.  The accessors `size()` (number of
CVs, the length of `cv_parent`) and `n_cell()` (number of cells, one
less than the length of `cell_cv_divs`) live in the geometry base class
header, which is not under `src/`; they are modelled from the spec's
data model (`cell_cv_divs` holds the per-cell partition boundaries). -/

/-- A piecewise map from branch positions to CV indices
(`pw_elements<fvm_size_type>`): (left, right, value) triples. -/
abbrev pw_cv_map := List (ℚ × ℚ × ℕ)

structure cv_geometry where
  cv_cables : List mcable
  cv_cables_divs : List ℤ
  cv_parent : List ℤ
  cv_children : List ℤ
  cv_children_divs : List ℤ
  cv_to_cell : List ℤ
  cell_cv_divs : List ℤ
  branch_cv_map : List (List pw_cv_map)
  deriving DecidableEq, Repr

/-- `impl::append_offset`: push each right-hand element shifted by
`offset`, preserving `-1` (`npos`). -/
def append_offset (ctr : List ℤ) (offset : ℤ) (rhs : List ℤ) : List ℤ :=
  ctr ++ rhs.map (fun x => if x + 1 = 0 then x else offset + x)

/-- `impl::append_divs`: graft the right division vector onto the left
one, offset by the left's last entry. -/
def append_divs : List ℤ → List ℤ → List ℤ
  | [], right => right
  | left, [] => left
  | left, _ :: rt => append_offset left (left.getLastD 0) rt

/-- Modelled from the spec: `cv_geometry::size()` — the number of CVs. -/
def cv_geometry.size (g : cv_geometry) : ℕ := g.cv_parent.length

/-- Modelled from the spec: `cv_geometry::n_cell()` — the number of
cells, one less than the length of the per-cell partition
`cell_cv_divs`. -/
def cv_geometry.n_cell (g : cv_geometry) : ℕ := g.cell_cv_divs.length - 1

/-- `append(cv_geometry&, const cv_geometry&)` from `fvm_layout.cpp`
(functional form: returns the merged geometry). -/
def append_geometry (geom right : cv_geometry) : cv_geometry :=
  if right.n_cell = 0 then geom
  else if geom.n_cell = 0 then right
  else
    { cv_cables := geom.cv_cables ++ right.cv_cables
      cv_cables_divs := append_divs geom.cv_cables_divs right.cv_cables_divs
      cv_parent := append_offset geom.cv_parent (geom.size : ℤ) right.cv_parent
      cv_children := append_offset geom.cv_children (geom.size : ℤ) right.cv_children
      cv_children_divs := append_divs geom.cv_children_divs right.cv_children_divs
      cv_to_cell := append_offset geom.cv_to_cell (geom.n_cell : ℤ) right.cv_to_cell
      cell_cv_divs := append_divs geom.cell_cv_divs right.cell_cv_divs
      branch_cv_map := geom.branch_cv_map ++ right.branch_cv_map }

/-- Division vectors as produced by the source: they start at `0` and
hold non-negative offsets. -/
def divs_wf (d : List ℤ) : Prop :=
  (d = [] ∨ d.head? = some 0) ∧ ∀ x ∈ d, 0 ≤ x

/-- Index vectors hold either the `npos` value `-1` or a valid
non-negative index. -/
def idx_wf (l : List ℤ) : Prop := ∀ x ∈ l, x = -1 ∨ 0 ≤ x

def geom_wf (g : cv_geometry) : Prop :=
  divs_wf g.cv_cables_divs ∧ divs_wf g.cv_children_divs ∧ divs_wf g.cell_cv_divs ∧
  idx_wf g.cv_parent ∧ idx_wf g.cv_children ∧ idx_wf g.cv_to_cell

/-- A one-cell, one-CV geometry (as produced by the `cv_geometry`
constructor for a single CV covering one branch). -/
def unitGeom : cv_geometry :=
  { cv_cables := [⟨0, 0, 1⟩]
    cv_cables_divs := [0, 1]
    cv_parent := [-1]
    cv_children := []
    cv_children_divs := [0, 0]
    cv_to_cell := [0]
    cell_cv_divs := [0, 1]
    branch_cv_map := [[[(0, 1, 0)]]] }

theorem wrExecutedSweeps_eq (vdelta : ℕ → ℚ) : wrExecutedSweeps vdelta = [0] := by
  simp [wrExecutedSweeps, wrLoop, wrBreakCond, wr_max]

/-- C1, counterexample.  Take the max-abs voltage delta between
successive iterations to be constantly `1`, far above the tolerance
`eps = 1e-7`.  The claim says the outer loop does not stop after a
single sweep and that it replays recorded peer traces; the code executes
exactly one sweep (sweep `0`), which never replays a trace. -/
theorem C1_counterexample :
    wrSweepCount (fun _ => 1) = 1 ∧
    wrExecutedSweeps (fun _ => 1) = [0] ∧
    wrReplayActive 0 = false ∧
    wrEps ≤ 1 := by
  refine ⟨?_, wrExecutedSweeps_eq _, by simp [wrReplayActive], by norm_num [wrEps]⟩
  simp [wrSweepCount, wrExecutedSweeps_eq]

/-- C1, amended.  For every profile of inter-iteration voltage deltas,
the outer loop of `integrate` executes exactly one full per-step sweep
(`wr_max` is hard-coded to `1`), and no executed sweep replays a
recorded peer-voltage trace; termination is independent of the voltage
deltas. -/
theorem C1_amended (vdelta : ℕ → ℚ) :
    wrSweepCount vdelta = 1 ∧
    ∀ it ∈ wrExecutedSweeps vdelta, wrReplayActive it = false := by
  refine ⟨by simp [wrSweepCount, wrExecutedSweeps_eq], ?_⟩
  intro it hit
  rw [wrExecutedSweeps_eq] at hit
  simp only [List.mem_singleton] at hit
  subst hit
  simp [wrReplayActive]

theorem clampTimeTo_le (t1 : ℚ) (next : Option ℚ) : clampTimeTo t1 next ≤ t1 := by
  cases next with
  | none => exact le_refl _
  | some te =>
    by_cases h : te < t1
    · simp [clampTimeTo, h]; exact le_of_lt h
    · simp [clampTimeTo, h]

theorem clampTimeTo_le_next (t1 te : ℚ) (next : Option ℚ) (h : next = some te) :
    clampTimeTo t1 next ≤ te := by
  subst h
  by_cases h : te < t1
  · simp [clampTimeTo, h]
  · simp [clampTimeTo, h]; linarith [not_lt.mp h]

theorem stepOnce_tStart {α : Type} (dt_max tfinal : ℚ) (upd : α → α) (s : IntState α) :
    (stepOnce dt_max tfinal upd s).2.tStart = s.time := rfl

theorem stepOnce_phys {α : Type} (dt_max tfinal : ℚ) (upd : α → α) (s : IntState α) :
    (stepOnce dt_max tfinal upd s).1.phys = upd s.phys := rfl

theorem stepOnce_tTo_le {α : Type} (dt_max tfinal : ℚ) (upd : α → α) (s : IntState α) :
    (stepOnce dt_max tfinal upd s).2.tTo ≤ s.time + dt_max ∧
    (stepOnce dt_max tfinal upd s).2.tTo ≤ tfinal := by
  have h := clampTimeTo_le (min (s.time + dt_max) tfinal)
    (nextEventTime (s.events.filter (fun e => !(decide (e.time ≤ s.time)))))
  constructor
  · exact le_trans h (min_le_left _ _)
  · exact le_trans h (min_le_right _ _)

theorem stepOnce_events_split {α : Type} (dt_max tfinal : ℚ) (upd : α → α)
    (s : IntState α) (e : deliverable_event) (he : e ∈ s.events) :
    e ∈ (stepOnce dt_max tfinal upd s).2.delivered ∨
    e ∈ (stepOnce dt_max tfinal upd s).1.events := by
  unfold stepOnce
  simp only [List.mem_filter, he, true_and]
  by_cases h : e.time ≤ s.time
  · left; simpa using h
  · right; simpa using h

theorem stepOnce_pending_sub {α : Type} (dt_max tfinal : ℚ) (upd : α → α)
    (s : IntState α) (e : deliverable_event)
    (he : e ∈ (stepOnce dt_max tfinal upd s).1.events) : e ∈ s.events := by
  unfold stepOnce at he
  exact (List.mem_filter.mp he).1

theorem stepOnce_pending_ge {α : Type} (dt_max tfinal : ℚ) (upd : α → α)
    (s : IntState α) (e : deliverable_event)
    (he : e ∈ (stepOnce dt_max tfinal upd s).1.events) :
    (stepOnce dt_max tfinal upd s).2.tTo ≤ e.time := by
  unfold stepOnce at he ⊢
  simp only
  set rest := s.events.filter (fun e => !(decide (e.time ≤ s.time))) with hrest
  have hmem : e.time ∈ rest.map (fun e => e.time) := List.mem_map_of_mem _ he
  rcases hmin : (rest.map (fun e => e.time)).min? with _ | te
  · rw [List.min?_eq_none_iff] at hmin
    rw [hmin] at hmem
    exact absurd hmem (List.not_mem_nil _)
  · have hle : te ≤ e.time :=
      (List.le_min?_iff (fun a b c => le_min_iff) hmin).1 (le_refl te) e.time hmem
    exact le_trans (clampTimeTo_le_next _ te _ hmin) hle

theorem runSteps_succ {α : Type} (dt_max tfinal : ℚ) (upd : α → α)
    (n : ℕ) (s : IntState α) :
    runSteps dt_max tfinal upd (n + 1) s =
      ((runSteps dt_max tfinal upd n (stepOnce dt_max tfinal upd s).1).1,
       (stepOnce dt_max tfinal upd s).2 ::
         (runSteps dt_max tfinal upd n (stepOnce dt_max tfinal upd s).1).2) := rfl

theorem integrateLoop_succ_zero {α : Type} (dt_max tfinal : ℚ) (upd : α → α)
    (fuel : ℕ) (s : IntState α) (hn : dt_steps s.time tfinal dt_max = 0) :
    integrateLoop dt_max tfinal upd (fuel + 1) s = (s, []) := by
  simp [integrateLoop, hn]

theorem integrateLoop_succ_pos {α : Type} (dt_max tfinal : ℚ) (upd : α → α)
    (fuel : ℕ) (s : IntState α) (hn : dt_steps s.time tfinal dt_max ≠ 0) :
    integrateLoop dt_max tfinal upd (fuel + 1) s =
      ((integrateLoop dt_max tfinal upd fuel
          (runSteps dt_max tfinal upd (dt_steps s.time tfinal dt_max) s).1).1,
       (runSteps dt_max tfinal upd (dt_steps s.time tfinal dt_max) s).2 ++
         (integrateLoop dt_max tfinal upd fuel
           (runSteps dt_max tfinal upd (dt_steps s.time tfinal dt_max) s).1).2) := by
  simp [integrateLoop, hn]

theorem allDelivered_append (rs1 rs2 : List StepRec) :
    allDelivered (rs1 ++ rs2) = allDelivered rs1 ++ allDelivered rs2 := by
  simp [allDelivered]

theorem stepOnce_conserves {α : Type} (dt_max tfinal : ℚ) (upd : α → α)
    (s : IntState α) :
    Conserves s ((stepOnce dt_max tfinal upd s).1, [(stepOnce dt_max tfinal upd s).2]) := by
  intro e he
  rcases stepOnce_events_split dt_max tfinal upd s e he with h | h
  · left; simpa [allDelivered] using h
  · right; exact h

theorem conserves_comp {α : Type} (s s1 s2 : IntState α)
    (rs1 rs2 : List StepRec)
    (h1 : Conserves s (s1, rs1)) (h2 : Conserves s1 (s2, rs2)) :
    Conserves s (s2, rs1 ++ rs2) := by
  intro e he
  rcases h1 e he with h | h
  · left; rw [allDelivered_append]; exact List.mem_append_left _ h
  · rcases h2 e h with h' | h'
    · left; rw [allDelivered_append]; exact List.mem_append_right _ h'
    · right; exact h'

theorem stepOnce_complete {α : Type} (dt_max tfinal : ℚ) (upd : α → α)
    (s : IntState α) :
    DeliveryComplete s.events [(stepOnce dt_max tfinal upd s).2] := by
  intro pre r post heq e he ht
  cases pre with
  | cons a l =>
    exfalso
    have := congrArg List.length heq
    simp at this
  | nil =>
    simp only [List.nil_append] at heq
    have hr : (stepOnce dt_max tfinal upd s).2 = r :=
      ((List.cons.injEq _ _ _ _).mp heq).1
    rcases stepOnce_events_split dt_max tfinal upd s e he with h | h
    · rw [hr] at h
      simpa [allDelivered] using h
    · exact absurd ht
        (not_lt.mpr (hr ▸ stepOnce_pending_ge dt_max tfinal upd s e h))

theorem deliveryComplete_comp {α : Type} (s s1 : IntState α)
    (rs1 rs2 : List StepRec)
    (h1 : DeliveryComplete s.events rs1)
    (hc : Conserves s (s1, rs1))
    (h2 : DeliveryComplete s1.events rs2) :
    DeliveryComplete s.events (rs1 ++ rs2) := by
  intro pre r post heq e he ht
  rcases List.append_eq_append_iff.mp heq.symm with ⟨mid, hrs1, hmid⟩ | ⟨mid, hpre, hrs2⟩
  · -- rs1 = pre ++ mid and r :: post = mid ++ rs2
    cases mid with
    | nil =>
      -- pre = rs1 and rs2 = r :: post: r is the first record of the second run
      simp only [List.append_nil] at hrs1
      simp only [List.nil_append] at hmid
      rcases hc e he with hd | hp
      · rw [hrs1] at hd
        rw [allDelivered_append]
        exact List.mem_append_left _ hd
      · have := h2 [] r post (by simpa using hmid.symm) e hp ht
        rw [allDelivered_append]
        exact List.mem_append_right _ (by simpa using this)
    | cons b mid' =>
      simp only [List.cons_append] at hmid
      have hb := (List.cons.injEq _ _ _ _).mp hmid
      rw [← hb.1] at hrs1
      exact h1 pre r mid' hrs1 e he ht
  · -- pre = rs1 ++ mid and rs2 = mid ++ r :: post: r lies in the second run
    subst hpre
    rcases hc e he with hd | hp
    · rw [List.append_assoc, allDelivered_append]
      exact List.mem_append_left _ hd
    · have := h2 mid r post hrs2 e hp ht
      rw [List.append_assoc, allDelivered_append]
      exact List.mem_append_right _ (by simpa using this)

theorem runSteps_conserves {α : Type} (dt_max tfinal : ℚ) (upd : α → α) :
    ∀ (n : ℕ) (s : IntState α),
      Conserves s (runSteps dt_max tfinal upd n s) := by
  intro n
  induction n with
  | zero => intro s e he; right; exact he
  | succ n ih =>
    intro s
    have h := conserves_comp s (stepOnce dt_max tfinal upd s).1
      (runSteps dt_max tfinal upd n (stepOnce dt_max tfinal upd s).1).1
      [(stepOnce dt_max tfinal upd s).2]
      (runSteps dt_max tfinal upd n (stepOnce dt_max tfinal upd s).1).2
      (stepOnce_conserves dt_max tfinal upd s)
      (ih (stepOnce dt_max tfinal upd s).1)
    rw [runSteps_succ]
    exact h

theorem runSteps_complete {α : Type} (dt_max tfinal : ℚ) (upd : α → α) :
    ∀ (n : ℕ) (s : IntState α),
      DeliveryComplete s.events (runSteps dt_max tfinal upd n s).2 := by
  intro n
  induction n with
  | zero => intro s pre r post heq; simp [runSteps] at heq
  | succ n ih =>
    intro s
    have h := deliveryComplete_comp s (stepOnce dt_max tfinal upd s).1
      [(stepOnce dt_max tfinal upd s).2]
      (runSteps dt_max tfinal upd n (stepOnce dt_max tfinal upd s).1).2
      (stepOnce_complete dt_max tfinal upd s)
      (stepOnce_conserves dt_max tfinal upd s)
      (ih (stepOnce dt_max tfinal upd s).1)
    rw [runSteps_succ]
    exact h

theorem integrateLoop_conserves {α : Type} (dt_max tfinal : ℚ) (upd : α → α) :
    ∀ (fuel : ℕ) (s : IntState α),
      Conserves s (integrateLoop dt_max tfinal upd fuel s) := by
  intro fuel
  induction fuel with
  | zero => intro s e he; right; exact he
  | succ fuel ih =>
    intro s
    by_cases hn : dt_steps s.time tfinal dt_max = 0
    · intro e he
      rw [integrateLoop_succ_zero dt_max tfinal upd fuel s hn]
      right; exact he
    · have h := conserves_comp s
        (runSteps dt_max tfinal upd (dt_steps s.time tfinal dt_max) s).1
        (integrateLoop dt_max tfinal upd fuel
          (runSteps dt_max tfinal upd (dt_steps s.time tfinal dt_max) s).1).1
        (runSteps dt_max tfinal upd (dt_steps s.time tfinal dt_max) s).2
        (integrateLoop dt_max tfinal upd fuel
          (runSteps dt_max tfinal upd (dt_steps s.time tfinal dt_max) s).1).2
        (runSteps_conserves dt_max tfinal upd _ s)
        (ih _)
      rw [integrateLoop_succ_pos dt_max tfinal upd fuel s hn]
      exact h

theorem integrateLoop_complete {α : Type} (dt_max tfinal : ℚ) (upd : α → α) :
    ∀ (fuel : ℕ) (s : IntState α),
      DeliveryComplete s.events (integrateLoop dt_max tfinal upd fuel s).2 := by
  intro fuel
  induction fuel with
  | zero => intro s pre r post heq; simp [integrateLoop] at heq
  | succ fuel ih =>
    intro s
    by_cases hn : dt_steps s.time tfinal dt_max = 0
    · intro pre r post heq
      rw [integrateLoop_succ_zero dt_max tfinal upd fuel s hn] at heq
      simp at heq
    · have h := deliveryComplete_comp s
        (runSteps dt_max tfinal upd (dt_steps s.time tfinal dt_max) s).1
        (runSteps dt_max tfinal upd (dt_steps s.time tfinal dt_max) s).2
        (integrateLoop dt_max tfinal upd fuel
          (runSteps dt_max tfinal upd (dt_steps s.time tfinal dt_max) s).1).2
        (runSteps_complete dt_max tfinal upd _ s)
        (runSteps_conserves dt_max tfinal upd _ s)
        (ih _)
      rw [integrateLoop_succ_pos dt_max tfinal upd fuel s hn]
      exact h

theorem runSteps_time_bounds {α : Type} (dt_max tfinal : ℚ) (upd : α → α) :
    ∀ (n : ℕ) (s : IntState α) (r : StepRec),
      r ∈ (runSteps dt_max tfinal upd n s).2 →
      r.tTo ≤ r.tStart + dt_max ∧ r.tTo ≤ tfinal := by
  intro n
  induction n with
  | zero => intro s r hr; simp [runSteps] at hr
  | succ n ih =>
    intro s r hr
    rw [runSteps_succ] at hr
    simp only [List.mem_cons] at hr
    rcases hr with hr | hr
    · subst hr
      refine ⟨?_, (stepOnce_tTo_le dt_max tfinal upd s).2⟩
      rw [stepOnce_tStart]
      exact (stepOnce_tTo_le dt_max tfinal upd s).1
    · exact ih _ r hr

theorem integrateLoop_time_bounds {α : Type} (dt_max tfinal : ℚ) (upd : α → α) :
    ∀ (fuel : ℕ) (s : IntState α) (r : StepRec),
      r ∈ (integrateLoop dt_max tfinal upd fuel s).2 →
      r.tTo ≤ r.tStart + dt_max ∧ r.tTo ≤ tfinal := by
  intro fuel
  induction fuel with
  | zero => intro s r hr; simp [integrateLoop] at hr
  | succ fuel ih =>
    intro s r hr
    by_cases hn : dt_steps s.time tfinal dt_max = 0
    · rw [integrateLoop_succ_zero dt_max tfinal upd fuel s hn] at hr
      simp at hr
    · rw [integrateLoop_succ_pos dt_max tfinal upd fuel s hn] at hr
      simp only [List.mem_append] at hr
      rcases hr with hr | hr
      · exact runSteps_time_bounds dt_max tfinal upd _ s r hr
      · exact ih _ r hr

/-- C3: for every step of `integrate(tfinal, dt_max, …)`, the time
advances by at most `dt_max` and never past `tfinal` (exactly, in the
rational model; the spec allows a floating-point `ε`), and after
`integrate` returns, `time()` (i.e. `tmin_` after `set_tmin(tfinal)`)
equals `tfinal`. -/
theorem C3_step_time_bounds {α : Type} (tfinal dt_max : ℚ) (upd : α → α)
    (fuel : ℕ) (t0 : ℚ) (staged : List deliverable_event) (phys : α)
    (r : StepRec)
    (hr : r ∈ (integrate tfinal dt_max upd fuel t0 staged phys).records) :
    r.tTo - r.tStart ≤ dt_max ∧ r.tTo ≤ tfinal ∧
    (integrate tfinal dt_max upd fuel t0 staged phys).reportedTime = tfinal := by
  have h := integrateLoop_time_bounds dt_max tfinal upd fuel ⟨t0, staged, phys⟩ r hr
  exact ⟨by linarith [h.1], h.2, rfl⟩

/-- C10: calling `integrate` with `tfinal ≤` the current time runs zero
steps (`dt_steps` returns `0`): no event is delivered, no matrix solve
occurs (there are no step records), the physical state (voltage,
mechanism state) and the pending-event list are untouched, and `time()`
afterwards reports `tfinal` even when that is earlier than the time
before the call. -/
theorem C10_no_steps {α : Type} (tfinal dt_max : ℚ) (upd : α → α)
    (fuel : ℕ) (t0 : ℚ) (staged : List deliverable_event) (phys : α)
    (h : tfinal ≤ t0) :
    (integrate tfinal dt_max upd fuel t0 staged phys).records = [] ∧
    (integrate tfinal dt_max upd fuel t0 staged phys).final.phys = phys ∧
    (integrate tfinal dt_max upd fuel t0 staged phys).final.events = staged ∧
    (integrate tfinal dt_max upd fuel t0 staged phys).final.time = t0 ∧
    (integrate tfinal dt_max upd fuel t0 staged phys).reportedTime = tfinal := by
  have hz : dt_steps t0 tfinal dt_max = 0 := by simp [dt_steps, h]
  cases fuel with
  | zero => exact ⟨rfl, rfl, rfl, rfl, rfl⟩
  | succ fuel => simp [integrate, integrateLoop, hz]

/-- C10, witness: `tfinal = 0` with current time `1`. -/
theorem C10_no_steps_witness :
    (0 : ℚ) ≤ 1 ∧
    (integrate (α := Unit) 0 1 id 3 1 [⟨1/2, 1⟩] ()).records = [] ∧
    (integrate (α := Unit) 0 1 id 3 1 [⟨1/2, 1⟩] ()).final.phys = () ∧
    (integrate (α := Unit) 0 1 id 3 1 [⟨1/2, 1⟩] ()).final.events = [⟨1/2, 1⟩] ∧
    (integrate (α := Unit) 0 1 id 3 1 [⟨1/2, 1⟩] ()).final.time = 1 ∧
    (integrate (α := Unit) 0 1 id 3 1 [⟨1/2, 1⟩] ()).reportedTime = 0 := by
  have h := C10_no_steps (α := Unit) 0 1 id 3 1 [⟨1/2, 1⟩] () (by norm_num)
  exact ⟨by norm_num, h.1, h.2.1, h.2.2.1, h.2.2.2.1, h.2.2.2.2⟩

/-- C2, amended: every staged event whose time is strictly less than a
step's end time `time_to` is delivered — to the mechanisms, via the
marked-events span — during that step or an earlier one, hence before
that step's matrix solve.  (Events at exactly `time_to` are delivered at
the start of the next step, after this step's solve; see the
counterexample.) -/
theorem C2_strict_delivery {α : Type} (tfinal dt_max : ℚ) (upd : α → α)
    (fuel : ℕ) (t0 : ℚ) (staged : List deliverable_event) (phys : α)
    (pre : List StepRec) (r : StepRec) (post : List StepRec)
    (heq : (integrate tfinal dt_max upd fuel t0 staged phys).records
      = pre ++ r :: post)
    (e : deliverable_event) (he : e ∈ staged) (ht : e.time < r.tTo) :
    e ∈ allDelivered (pre ++ [r]) :=
  integrateLoop_complete dt_max tfinal upd fuel ⟨t0, staged, phys⟩
    pre r post heq e he ht

/-- C2, counterexample.  Run `integrate(tfinal = 1, dt_max = 1)` from
time `0` with one staged event at time `1/2`.  The first step marks
events with `time ≤ 0` (none), then clamps `time_to` to the event time
`1/2`.  The first step's end time is `time_to = 1/2` and the event's
time satisfies `time ≤ time_to`, yet the event is not delivered before
that step's matrix solve — it is delivered only in the second step. -/
theorem C2_counterexample :
    (integrate (α := Unit) 1 1 id 4 0 [⟨1/2, 1⟩] ()).records =
      [⟨0, 1/2, []⟩, ⟨1/2, 1, [⟨1/2, 1⟩]⟩] ∧
    (deliverable_event.mk (1/2) 1).time ≤ (StepRec.mk 0 (1/2) []).tTo ∧
    deliverable_event.mk (1/2) 1 ∉ allDelivered [StepRec.mk 0 (1/2) []] := by
  refine ⟨?_, by norm_num, by simp [allDelivered]⟩
  norm_num [integrate, integrateLoop, runSteps, stepOnce, dt_steps,
    nextEventTime, clampTimeTo, min_def, List.filter]

/-- C2, witness for the amended theorem: in the same run, the staged
event at time `1/2` has time strictly below the second step's end time
`1`, and is indeed delivered by the end of that step's delivery phase. -/
theorem C2_strict_delivery_witness :
    (integrate (α := Unit) 1 1 id 4 0 [⟨1/2, 1⟩] ()).records =
      [⟨0, 1/2, []⟩] ++ ⟨1/2, 1, [⟨1/2, 1⟩]⟩ :: [] ∧
    deliverable_event.mk (1/2) 1 ∈ [deliverable_event.mk (1/2) 1] ∧
    (deliverable_event.mk (1/2) 1).time < (StepRec.mk (1/2) 1 [⟨1/2, 1⟩]).tTo ∧
    deliverable_event.mk (1/2) 1 ∈
      allDelivered ([⟨0, 1/2, []⟩] ++ [⟨1/2, 1, [⟨1/2, 1⟩]⟩]) := by
  have heq : (integrate (α := Unit) 1 1 id 4 0 [⟨1/2, 1⟩] ()).records =
      [⟨0, 1/2, []⟩] ++ ⟨1/2, 1, [⟨1/2, 1⟩]⟩ :: [] := by
    norm_num [integrate, integrateLoop, runSteps, stepOnce, dt_steps,
      nextEventTime, clampTimeTo, min_def, List.filter]
  refine ⟨heq, by simp, by norm_num, ?_⟩
  exact C2_strict_delivery 1 1 id 4 0 [⟨1/2, 1⟩] ()
    [⟨0, 1/2, []⟩] ⟨1/2, 1, [⟨1/2, 1⟩]⟩ [] heq
    (deliverable_event.mk (1/2) 1) (by simp) (by norm_num)

/-- C3, witness: a two-step run with `tfinal = dt_max = 1` from `t = 0`;
its first step advances from `0` to `1`. -/
theorem C3_step_time_bounds_witness :
    (StepRec.mk 0 1 []) ∈ (integrate (α := Unit) 1 1 id 2 0 [] ()).records ∧
    ((StepRec.mk 0 1 []).tTo - (StepRec.mk 0 1 []).tStart ≤ 1 ∧
     (StepRec.mk 0 1 []).tTo ≤ 1 ∧
     (integrate (α := Unit) 1 1 id 2 0 [] ()).reportedTime = 1) := by
  have hm : (StepRec.mk 0 1 []) ∈ (integrate (α := Unit) 1 1 id 2 0 [] ()).records := by
    norm_num [integrate, integrateLoop, runSteps, stepOnce, dt_steps,
      nextEventTime, clampTimeTo, min_def, List.filter]
  exact ⟨hm, C3_step_time_bounds 1 1 id 2 0 [] () (StepRec.mk 0 1 []) hm⟩

theorem getD_set_ne {α : Type} (l : List α) (m k : ℕ) (a d : α) (h : m ≠ k) :
    (l.set m a).getD k d = l.getD k d := by
  simp [List.getD_eq_getElem?_getD, List.getElem?_set_ne h]

theorem getD_set_self {α : Type} (l : List α) (m : ℕ) (a d : α) (h : m < l.length) :
    (l.set m a).getD m d = a := by
  simp [List.getD_eq_getElem?_getD, List.getElem?_set_self, h]

theorem processCV_length (cvParent : List ℤ) (area : List ℚ) (st : DiscVT) (j : ℕ) :
    (processCV cvParent area st j).v.length = st.v.length ∧
    (processCV cvParent area st j).t.length = st.t.length := by
  unfold processCV
  dsimp only
  split_ifs <;> simp

theorem processCV_getD_ne (cvParent : List ℤ) (area : List ℚ) (st : DiscVT)
    (j k : ℕ) (hjk : j ≠ k)
    (hfix : ¬(cvParent.getD k (-1) = -1 ∧ area.getD k 0 = 0)) :
    (processCV cvParent area st j).v.getD k 0 = st.v.getD k 0 ∧
    (processCV cvParent area st j).t.getD k 0 = st.t.getD k 0 := by
  unfold processCV
  dsimp only
  split_ifs with h1 h2 h3
  · -- positive area, root-fix branch writes at (cvParent[j]).toNat
    have hkp : (cvParent.getD j (-1)).toNat ≠ k := by
      intro hkp
      exact hfix ⟨hkp ▸ h2.2.1, hkp ▸ h2.2.2⟩
    constructor <;>
      · rw [getD_set_ne _ _ _ _ _ hkp, getD_set_ne _ _ _ _ _ hjk]
  · exact ⟨getD_set_ne _ _ _ _ _ hjk, getD_set_ne _ _ _ _ _ hjk⟩
  · exact ⟨getD_set_ne _ _ _ _ _ hjk, getD_set_ne _ _ _ _ _ hjk⟩
  · exact ⟨rfl, rfl⟩

theorem foldl_processCV_preserve (cvParent : List ℤ) (area : List ℚ) :
    ∀ (L : List ℕ) (st : DiscVT) (k : ℕ),
      (∀ j ∈ L, j ≠ k) →
      ¬(cvParent.getD k (-1) = -1 ∧ area.getD k 0 = 0) →
      (L.foldl (processCV cvParent area) st).v.getD k 0 = st.v.getD k 0 ∧
      (L.foldl (processCV cvParent area) st).t.getD k 0 = st.t.getD k 0 := by
  intro L
  induction L with
  | nil => intro st k _ _; exact ⟨rfl, rfl⟩
  | cons j L ih =>
    intro st k hk hfix
    have hstep := processCV_getD_ne cvParent area st j k
      (hk j (List.mem_cons_self j L)) hfix
    have hrest := ih (processCV cvParent area st j) k
      (fun m hm => hk m (List.mem_cons_of_mem j hm)) hfix
    exact ⟨hrest.1.trans hstep.1, hrest.2.trans hstep.2⟩

theorem foldl_processCV_length (cvParent : List ℤ) (area : List ℚ) :
    ∀ (L : List ℕ) (st : DiscVT),
      (L.foldl (processCV cvParent area) st).v.length = st.v.length ∧
      (L.foldl (processCV cvParent area) st).t.length = st.t.length := by
  intro L
  induction L with
  | nil => intro st; exact ⟨rfl, rfl⟩
  | cons j L ih =>
    intro st
    have h := processCV_length cvParent area st j
    have h' := ih (processCV cvParent area st j)
    exact ⟨h'.1.trans h.1, h'.2.trans h.2⟩

/-- C4, counterexample.  Three CVs in a chain `0 → 1 → 2`
(`cv_parent = [-1, 0, 1]`): CV 1 has zero area, its parent CV 0 and its
child CV 2 both have positive area, with area-weighted initial
potentials `10` (CV 0) and `20` (CV 2).  The claim requires CV 1 to take
the non-trivial child's value `20`; the code assigns the parent's value
`10`. -/
theorem C4_counterexample :
    ([1, 0, 1] : List ℚ).getD 1 0 = 0 ∧
    ([-1, 0, 1] : List ℤ).getD 2 (-1) = 1 ∧
    (0 : ℚ) < ([1, 0, 1] : List ℚ).getD 2 0 ∧
    (fvm_cv_vt [-1, 0, 1] [1, 0, 1] [10, 0, 20] [1, 0, 2]).v.getD 1 0 = 10 ∧
    (fvm_cv_vt [-1, 0, 1] [1, 0, 1] [10, 0, 20] [1, 0, 2]).v.getD 2 0 = 20 ∧
    (10 : ℚ) ≠ 20 := by
  refine ⟨by norm_num, by norm_num, by norm_num, ?_, ?_, by norm_num⟩ <;>
    norm_num [fvm_cv_vt, processCV, List.range_succ]

/-- C4, amended: a zero-area CV `i` with a parent `p` takes its initial
membrane potential and temperature from the parent CV `p` — never from a
child — and this equals the parent's final value whenever the parent is
not itself a zero-area root (a zero-area root is instead overwritten
with the values of its last positive-area child, so only in that case
can the copy read a value the parent later loses). -/
theorem C4_zero_area_from_parent (cvParent : List ℤ) (area vInt tInt : List ℚ)
    (i p : ℕ)
    (hi : i < cvParent.length)
    (hiv : i < vInt.length) (hit : i < tInt.length)
    (hp : cvParent.getD i (-1) = (p : ℤ))
    (hpi : p < i)
    (ha : area.getD i 0 = 0)
    (hroot : ¬(cvParent.getD p (-1) = -1 ∧ area.getD p 0 = 0)) :
    (fvm_cv_vt cvParent area vInt tInt).v.getD i 0
      = (fvm_cv_vt cvParent area vInt tInt).v.getD p 0 ∧
    (fvm_cv_vt cvParent area vInt tInt).t.getD i 0
      = (fvm_cv_vt cvParent area vInt tInt).t.getD p 0 := by
  classical
  set f := processCV cvParent area with hf
  -- split the index range at i
  obtain ⟨k, hk⟩ : ∃ k, cvParent.length = (i + 1) + k :=
    ⟨cvParent.length - (i + 1), by omega⟩
  have hsplit : List.range cvParent.length
      = (List.range i ++ [i]) ++ (List.range k).map (fun m => (i + 1) + m) := by
    rw [hk, List.range_add, List.range_succ]
  have hfold : fvm_cv_vt cvParent area vInt tInt
      = ((List.range k).map (fun m => (i + 1) + m)).foldl f
          (f ((List.range i).foldl f ⟨vInt, tInt⟩) i) := by
    rw [fvm_cv_vt, hsplit, List.foldl_append, List.foldl_append, List.foldl_cons,
      List.foldl_nil]
  set st := (List.range i).foldl f ⟨vInt, tInt⟩ with hst
  -- the step at i copies the parent's current values
  have hpnat : ((p : ℤ)).toNat = p := Int.toNat_natCast p
  have hpne : (p : ℤ) ≠ -1 := by omega
  have hstep : f st i = ⟨st.v.set i (st.v.getD p 0), st.t.set i (st.t.getD p 0)⟩ := by
    rw [hf]
    unfold processCV
    rw [hp, if_neg (by rw [ha]; exact lt_irrefl 0), if_pos hpne, hpnat]
  -- the remaining indices never write positions i or p
  have hne_i : ∀ j ∈ (List.range k).map (fun m => (i + 1) + m), j ≠ i := by
    intro j hj
    simp only [List.mem_map, List.mem_range] at hj
    omega
  have hne_p : ∀ j ∈ (List.range k).map (fun m => (i + 1) + m), j ≠ p := by
    intro j hj
    simp only [List.mem_map, List.mem_range] at hj
    omega
  have hfix_i : ¬(cvParent.getD i (-1) = -1 ∧ area.getD i 0 = 0) := by
    rw [hp]
    intro hcon
    exact hpne hcon.1
  have hpres_i := foldl_processCV_preserve cvParent area
    ((List.range k).map (fun m => (i + 1) + m)) (f st i) i hne_i hfix_i
  have hpres_p := foldl_processCV_preserve cvParent area
    ((List.range k).map (fun m => (i + 1) + m)) (f st i) p hne_p hroot
  have hlen := foldl_processCV_length cvParent area (List.range i) ⟨vInt, tInt⟩
  have hlenv : i < st.v.length := by rw [hst, hlen.1]; exact hiv
  have hlent : i < st.t.length := by rw [hst, hlen.2]; exact hit
  have hip : i ≠ p := Nat.ne_of_gt hpi
  constructor
  · rw [hfold, hpres_i.1, hpres_p.1, hstep]
    simp only
    rw [getD_set_self _ _ _ _ hlenv, getD_set_ne _ _ _ _ _ hip]
  · rw [hfold, hpres_i.2, hpres_p.2, hstep]
    simp only
    rw [getD_set_self _ _ _ _ hlent, getD_set_ne _ _ _ _ _ hip]

/-- C4, witness for the amended theorem: in the chain of the
counterexample, zero-area CV 1 indeed carries its parent's values. -/
theorem C4_zero_area_from_parent_witness :
    (1 < ([-1, 0, 1] : List ℤ).length ∧
     ([-1, 0, 1] : List ℤ).getD 1 (-1) = ((0 : ℕ) : ℤ) ∧
     ([1, 0, 1] : List ℚ).getD 1 0 = 0 ∧
     ¬(([-1, 0, 1] : List ℤ).getD 0 (-1) = -1 ∧ ([1, 0, 1] : List ℚ).getD 0 0 = 0)) ∧
    (fvm_cv_vt [-1, 0, 1] [1, 0, 1] [10, 0, 20] [1, 0, 2]).v.getD 1 0
      = (fvm_cv_vt [-1, 0, 1] [1, 0, 1] [10, 0, 20] [1, 0, 2]).v.getD 0 0 ∧
    (fvm_cv_vt [-1, 0, 1] [1, 0, 1] [10, 0, 20] [1, 0, 2]).t.getD 1 0
      = (fvm_cv_vt [-1, 0, 1] [1, 0, 1] [10, 0, 20] [1, 0, 2]).t.getD 0 0 := by
  have h := C4_zero_area_from_parent [-1, 0, 1] [1, 0, 1] [10, 0, 20] [1, 0, 2]
    1 0 (by norm_num) (by norm_num) (by norm_num) (by norm_num) (by norm_num)
    (by norm_num) (by norm_num)
  exact ⟨⟨by norm_num, by norm_num, by norm_num, by norm_num⟩, h.1, h.2⟩

/-- C5, counterexample.  Child CV: a single cable covering branch `0`
(reference point: midpoint `1/2`).  Parent CV: a trivial CV with the
single zero-length cable `{1, 1, 1}` on a *different* branch (the
configuration the source comments on).  With cumulative integral
`F b x = x`, the code integrates from position `0` and yields `200 µS`;
the claim's rule takes the parent's cable midpoint `1` and yields
`−200 µS`. -/
theorem C5_counterexample :
    face_conductance (fun _ x => x) [⟨0, 0, 1⟩] [⟨1, 1, 1⟩] = 200 ∧
    face_conductance_spec (fun _ x => x) [⟨0, 0, 1⟩] [⟨1, 1, 1⟩] = -200 ∧
    (200 : ℚ) ≠ -200 := by
  refine ⟨?_, ?_, by norm_num⟩ <;>
    norm_num [face_conductance, face_conductance_spec, cv_refpt,
      parent_refpt, parent_refpt_claim, cableMid]

/-- C5, amended: the face conductance is
`100 / ∫ ρ_a·dℓ/(π r²)` between the two reference points along the
child's first-cable branch, where a single-cable CV's reference point is
its cable midpoint *provided that cable lies on that branch* — a
single-cable parent on a different branch (a trivial zero-length parent
CV) uses the proximal endpoint `0` of the shared branch instead — and a
multi-cable CV uses the shared branch endpoint (`0` for the parent,
`1` for the child). -/
theorem C5_refpoints (F : ℕ → ℚ → ℚ) (cv_cables parent_cables : List mcable)
    (h : ∀ pc, parent_cables = [pc] →
      ∀ front rest, cv_cables = front :: rest → pc.branch = front.branch) :
    face_conductance F cv_cables parent_cables
      = face_conductance_spec F cv_cables parent_cables := by
  cases cv_cables with
  | nil => rfl
  | cons front rest =>
    cases parent_cables with
    | nil => rfl
    | cons pc ps =>
      cases ps with
      | nil =>
        simp only [face_conductance, face_conductance_spec,
          parent_refpt, parent_refpt_claim]
        rw [if_pos (h pc rfl front rest rfl)]
      | cons q qs => rfl

/-- C5, witness: parent and child are single cables on the same branch;
both rules give the midpoint-to-midpoint integral,
`g = 100/(3/4 − 1/4) = 200`. -/
theorem C5_refpoints_witness :
    face_conductance (fun _ x => x) [⟨0, 1/2, 1⟩] [⟨0, 0, 1/2⟩]
      = face_conductance_spec (fun _ x => x) [⟨0, 1/2, 1⟩] [⟨0, 0, 1/2⟩] ∧
    face_conductance (fun _ x => x) [⟨0, 1/2, 1⟩] [⟨0, 0, 1/2⟩] = 200 := by
  constructor
  · exact C5_refpoints (fun _ x => x) [⟨0, 1/2, 1⟩] [⟨0, 0, 1/2⟩]
      (by intro pc hpc front rest hcv
          simp only [List.cons.injEq] at hpc hcv
          rw [← hpc.1, ← hcv.1])
  · norm_num [face_conductance, cv_refpt, parent_refpt, cableMid]

theorem cmp_inst_param_refl : ∀ (p : List ℚ), cmp_inst_param p p = .eq := by
  intro p
  induction p with
  | nil => rfl
  | cons x xs ih => simp [cmp_inst_param, lt_irrefl, ih]

/-- For parameter vectors of equal length (all instances of one
mechanism have `n_param` parameters), `cmp_inst_param` returns `eq`
exactly on equal vectors. -/
theorem cmp_inst_param_eq_iff : ∀ (a b : List ℚ), a.length = b.length →
    (cmp_inst_param a b = .eq ↔ a = b) := by
  intro a
  induction a with
  | nil =>
    intro b hb
    cases b with
    | nil => simp [cmp_inst_param]
    | cons y bs => simp at hb
  | cons x as ih =>
    intro b hb
    cases b with
    | nil => simp at hb
    | cons y bs =>
      simp only [List.length_cons, Nat.succ.injEq] at hb
      simp only [cmp_inst_param]
      rcases lt_trichotomy x y with h | h | h
      · rw [if_pos h]
        constructor
        · intro hc; exact absurd hc (by simp)
        · intro hc
          simp only [List.cons.injEq] at hc
          exact absurd (hc.1 ▸ h) (lt_irrefl _)
      · subst h
        rw [if_neg (lt_irrefl _), if_neg (lt_irrefl _)]
        rw [ih bs hb]
        simp
      · rw [if_neg (not_lt.mpr (le_of_lt h)), if_pos h]
        constructor
        · intro hc; exact absurd hc (by simp)
        · intro hc
          simp only [List.cons.injEq] at hc
          exact absurd (hc.1 ▸ h) (lt_irrefl _)

theorem cmp_inst_param_lt_trans : ∀ (a b c : List ℚ),
    cmp_inst_param a b = .lt → cmp_inst_param b c = .lt →
    cmp_inst_param a c = .lt := by
  intro a
  induction a with
  | nil => intro b c h1; simp [cmp_inst_param] at h1
  | cons x as ih =>
    intro b c h1 h2
    cases b with
    | nil => simp [cmp_inst_param] at h1
    | cons y bs =>
      cases c with
      | nil => simp [cmp_inst_param] at h2
      | cons z cs =>
        simp only [cmp_inst_param] at h1 h2 ⊢
        rcases lt_trichotomy x y with hxy | hxy | hxy
        · rcases lt_trichotomy y z with hyz | hyz | hyz
          · rw [if_pos (lt_trans hxy hyz)]
          · subst hyz; rw [if_pos hxy]
          · rw [if_pos hyz] at h2
            rw [if_neg (not_lt.mpr (le_of_lt hyz))] at h2
            simp at h2
        · subst hxy
          rcases lt_trichotomy x z with hxz | hxz | hxz
          · rw [if_pos hxz]
          · subst hxz
            rw [if_neg (lt_irrefl _), if_neg (lt_irrefl _)] at h1 h2 ⊢
            exact ih bs cs h1 h2
          · rw [if_neg (not_lt.mpr (le_of_lt hxz)), if_pos hxz] at h2
            simp at h2
        · rw [if_neg (not_lt.mpr (le_of_lt hxy)), if_pos hxy] at h1
          simp at h1

theorem cmp_inst_param_swap : ∀ (a b : List ℚ),
    cmp_inst_param b a = (cmp_inst_param a b).swap := by
  intro a
  induction a with
  | nil => intro b; cases b <;> rfl
  | cons x as ih =>
    intro b
    cases b with
    | nil => rfl
    | cons y bs =>
      simp only [cmp_inst_param]
      rcases lt_trichotomy x y with h | h | h
      · simp [h, asymm h, Ordering.swap]
      · subst h
        simpa [lt_irrefl] using ih bs
      · simp [h, asymm h, Ordering.swap]

/-- Consequence of `¬(b < a)` for the source's sort comparator: `a`
precedes `b` weakly, i.e. `a.cv < b.cv`, or the CVs agree and the
parameter comparison is `lt` or `eq`. -/
theorem synLt_false_elim (a b : synapse_instance) (h : synLt b a = false) :
    a.cv < b.cv ∨ (a.cv = b.cv ∧
      (cmp_inst_param a.param_values b.param_values = .lt ∨
       cmp_inst_param a.param_values b.param_values = .eq)) := by
  unfold synLt at h
  split_ifs at h with h1 h2
  · left; exact h2
  · have hcv : a.cv = b.cv := le_antisymm (not_lt.mp h1) (not_lt.mp h2)
    right
    refine ⟨hcv, ?_⟩
    rcases hord : cmp_inst_param b.param_values a.param_values with _ | _ | _ <;>
      rw [hord] at h
    · simp at h
    · right
      have := cmp_inst_param_swap b.param_values a.param_values
      rw [hord] at this
      cases hab : cmp_inst_param a.param_values b.param_values <;>
        rw [hab] at this <;> simp [Ordering.swap] at this ⊢
    · left
      have := cmp_inst_param_swap b.param_values a.param_values
      rw [hord] at this
      cases hab : cmp_inst_param a.param_values b.param_values <;>
        rw [hab] at this <;> simp [Ordering.swap] at this ⊢

theorem coalesce_step_merge (cfg : point_config) (p i : synapse_instance)
    (h1 : p.cv = i.cv)
    (h2 : cmp_inst_param p.param_values i.param_values = .eq) :
    coalesce_step true (cfg, some p) i =
      (⟨cfg.cv, bumpLast cfg.multiplicity,
        cfg.param_rows, cfg.target ++ [i.target]⟩, some i) := by
  simp [coalesce_step, h1, h2]

theorem coalesce_step_push_none (cfg : point_config) (i : synapse_instance) :
    coalesce_step true (cfg, none) i =
      (⟨cfg.cv ++ [i.cv], cfg.multiplicity ++ [1],
        cfg.param_rows ++ [i.param_values], cfg.target ++ [i.target]⟩, some i) := by
  simp [coalesce_step]

theorem coalesce_step_push_some (cfg : point_config) (p i : synapse_instance)
    (h : ¬(p.cv = i.cv ∧ cmp_inst_param p.param_values i.param_values = .eq)) :
    coalesce_step true (cfg, some p) i =
      (⟨cfg.cv ++ [i.cv], cfg.multiplicity ++ [1],
        cfg.param_rows ++ [i.param_values], cfg.target ++ [i.target]⟩, some i) := by
  by_cases h1 : p.cv = i.cv
  · have h2 : cmp_inst_param p.param_values i.param_values ≠ .eq :=
      fun h2 => h ⟨h1, h2⟩
    simp [coalesce_step, h1, h2]
  · simp [coalesce_step, h1]

theorem bumpLast_sum : ∀ (l : List ℕ), l ≠ [] → (bumpLast l).sum = l.sum + 1 := by
  intro l
  induction l with
  | nil => intro h; exact absurd rfl h
  | cons x xs ih =>
    intro _
    cases xs with
    | nil => simp [bumpLast]
    | cons y t =>
      have h := ih (by simp)
      simp only [bumpLast, List.sum_cons]
      simp only [List.sum_cons] at h
      rw [h]
      omega

theorem bumpLast_ne_nil : ∀ (l : List ℕ), l ≠ [] → bumpLast l ≠ [] := by
  intro l h
  cases l with
  | nil => exact absurd rfl h
  | cons x xs => cases xs <;> simp [bumpLast]

theorem coalesce_fold_sum_aux :
    ∀ (insts : List synapse_instance) (acc : point_config × Option synapse_instance),
      (acc.2 = none → acc.1.multiplicity = []) →
      (acc.2 ≠ none → acc.1.multiplicity ≠ []) →
      (insts.foldl (coalesce_step true) acc).1.multiplicity.sum
        = acc.1.multiplicity.sum + insts.length := by
  intro insts
  induction insts with
  | nil => intro acc _ _; simp
  | cons i rest ih =>
    intro acc hnone hsome
    rcases acc with ⟨cfg, prev⟩
    rcases prev with _ | p
    · rw [List.foldl_cons, coalesce_step_push_none]
      have h := ih (⟨cfg.cv ++ [i.cv], cfg.multiplicity ++ [1],
        cfg.param_rows ++ [i.param_values], cfg.target ++ [i.target]⟩, some i)
        (by intro hc; simp at hc) (by intro _; simp)
      simp only at h
      rw [h]
      simp [List.length_cons]
      omega
    · have hmul : cfg.multiplicity ≠ [] := hsome (by simp)
      by_cases hm : p.cv = i.cv ∧ cmp_inst_param p.param_values i.param_values = .eq
      · rw [List.foldl_cons, coalesce_step_merge cfg p i hm.1 hm.2]
        have h := ih (⟨cfg.cv, bumpLast cfg.multiplicity,
            cfg.param_rows, cfg.target ++ [i.target]⟩, some i)
          (by intro hc; simp at hc)
          (by intro _; exact bumpLast_ne_nil _ hmul)
        simp only at h
        rw [h]
        simp only [bumpLast_sum cfg.multiplicity hmul, List.length_cons]
        omega
      · rw [List.foldl_cons, coalesce_step_push_some cfg p i hm]
        have h := ih (⟨cfg.cv ++ [i.cv], cfg.multiplicity ++ [1],
          cfg.param_rows ++ [i.param_values], cfg.target ++ [i.target]⟩, some i)
          (by intro hc; simp at hc) (by intro _; simp)
        simp only at h
        rw [h]
        simp [List.length_cons]
        omega

/-- With coalescing on, the multiplicities of the built configuration
always sum to the number of processed instances. -/
theorem coalesce_fold_sum (insts : List synapse_instance) :
    (coalesce_fold true insts).multiplicity.sum = insts.length := by
  have h := coalesce_fold_sum_aux insts (⟨[], [], [], []⟩, none)
    (fun _ => rfl) (fun hc => absurd rfl hc)
  simpa [coalesce_fold] using h

theorem entryKeyLt_trans (x y z : ℕ × List ℚ)
    (h1 : entryKeyLt x y) (h2 : entryKeyLt y z) : entryKeyLt x z := by
  rcases h1 with h1 | ⟨h1, h1'⟩ <;> rcases h2 with h2 | ⟨h2, h2'⟩
  · exact Or.inl (lt_trans h1 h2)
  · exact Or.inl (h2 ▸ h1)
  · exact Or.inl (h1 ▸ h2)
  · exact Or.inr ⟨h1.trans h2, cmp_inst_param_lt_trans _ _ _ h1' h2'⟩

theorem coalesce_fold_entries_aux (n : ℕ) :
    ∀ (insts : List synapse_instance) (cfg : point_config)
      (p : synapse_instance) (zs : List (ℕ × List ℚ)),
      (∀ x ∈ insts, x.param_values.length = n) →
      p.param_values.length = n →
      List.Chain' (fun a b => synLt b a = false) (p :: insts) →
      cfg.cv.length = cfg.param_rows.length →
      zipped cfg = zs ++ [(p.cv, p.param_values)] →
      List.Pairwise entryKeyLt (zipped cfg) →
      List.Pairwise entryKeyLt
        (zipped (insts.foldl (coalesce_step true) (cfg, some p)).1) := by
  intro insts
  induction insts with
  | nil =>
    intro cfg p zs _ _ _ _ _ hpw
    simpa using hpw
  | cons i rest ih =>
    intro cfg p zs hn hp hch hlen hzip hpw
    have hni : i.param_values.length = n := hn i (List.mem_cons_self i rest)
    have hrel : synLt i p = false := (List.chain'_cons.mp hch).1
    have hch' : List.Chain' (fun a b => synLt b a = false) (i :: rest) :=
      (List.chain'_cons.mp hch).2
    have hnr : ∀ x ∈ rest, x.param_values.length = n :=
      fun x hx => hn x (List.mem_cons_of_mem i hx)
    by_cases hm : p.cv = i.cv ∧ cmp_inst_param p.param_values i.param_values = .eq
    · -- merge: the entry list is unchanged, `prev` becomes `i`
      rw [List.foldl_cons, coalesce_step_merge cfg p i hm.1 hm.2]
      have hpeq : p.param_values = i.param_values :=
        (cmp_inst_param_eq_iff _ _ (hp.trans hni.symm)).mp hm.2
      have hzip' : zipped (⟨cfg.cv, bumpLast cfg.multiplicity,
          cfg.param_rows, cfg.target ++ [i.target]⟩ : point_config)
          = zs ++ [(i.cv, i.param_values)] := by
        simpa [zipped, ← hm.1, ← hpeq] using hzip
      exact ih ⟨cfg.cv, bumpLast cfg.multiplicity,
          cfg.param_rows, cfg.target ++ [i.target]⟩ i zs hnr hni hch' hlen hzip'
        (by simpa [zipped] using hpw)
    · -- push: a new entry is appended, strictly above every earlier one
      rw [List.foldl_cons, coalesce_step_push_some cfg p i hm]
      have hklt : entryKeyLt (p.cv, p.param_values) (i.cv, i.param_values) := by
        rcases synLt_false_elim p i hrel with h | ⟨hcv, hcmp | hcmp⟩
        · exact Or.inl h
        · exact Or.inr ⟨hcv, hcmp⟩
        · exact absurd ⟨hcv, hcmp⟩ hm
      have hzip' : zipped (⟨cfg.cv ++ [i.cv], cfg.multiplicity ++ [1],
          cfg.param_rows ++ [i.param_values], cfg.target ++ [i.target]⟩ : point_config)
          = (zs ++ [(p.cv, p.param_values)]) ++ [(i.cv, i.param_values)] := by
        simp only [zipped] at hzip ⊢
        rw [List.zip_append (by omega), hzip]
        simp
      have hall : ∀ y ∈ zs ++ [(p.cv, p.param_values)],
          entryKeyLt y (i.cv, i.param_values) := by
        intro y hy
        rcases List.mem_append.mp hy with hy | hy
        · have hylt : entryKeyLt y (p.cv, p.param_values) := by
            have := hpw
            rw [hzip] at this
            have hrel' := (List.pairwise_append.mp this).2.2
            exact hrel' y hy _ (List.mem_singleton_self _)
          exact entryKeyLt_trans _ _ _ hylt hklt
        · rw [List.mem_singleton.mp hy]
          exact hklt
      have hpw' : List.Pairwise entryKeyLt
          ((zs ++ [(p.cv, p.param_values)]) ++ [(i.cv, i.param_values)]) := by
        rw [List.pairwise_append]
        refine ⟨by rw [← hzip]; exact hpw, List.pairwise_singleton _ _, ?_⟩
        intro y hy z hz
        rw [List.mem_singleton.mp hz]
        exact hall y hy
      refine ih ⟨cfg.cv ++ [i.cv], cfg.multiplicity ++ [1],
          cfg.param_rows ++ [i.param_values], cfg.target ++ [i.target]⟩ i
        (zs ++ [(p.cv, p.param_values)]) hnr hni hch' (by simp [hlen]) hzip' ?_
      rw [hzip']
      exact hpw'

/-- With coalescing on and the instance list sorted by the source's
comparator, the entries of the built configuration are strictly
increasing in (CV, parameter vector). -/
theorem coalesce_fold_entries (n : ℕ) (insts : List synapse_instance)
    (hn : ∀ x ∈ insts, x.param_values.length = n)
    (hs : List.Chain' (fun a b => synLt b a = false) insts) :
    List.Pairwise entryKeyLt (zipped (coalesce_fold true insts)) := by
  cases insts with
  | nil => simp [coalesce_fold, zipped]
  | cons i rest =>
    unfold coalesce_fold
    rw [List.foldl_cons, coalesce_step_push_none]
    exact coalesce_fold_entries_aux n rest
      ⟨[i.cv], [1], [i.param_values], [i.target]⟩ i []
      (fun x hx => hn x (List.mem_cons_of_mem i hx))
      (hn i (List.mem_cons_self i rest)) hs rfl rfl
      (List.pairwise_singleton _ _)

/-- C6: with coalescing enabled for a linear point mechanism, the fold
over the sorted instance list yields (a) multiplicities summing to the
number of original placements (the instance count) and (b) pairwise
distinct parameter vectors among coalesced entries on the same CV.  The
hypotheses record what the source establishes before the fold: every
instance carries `n_param` parameter values, and the instances are
sorted by the comparator of `cv_order` (consecutive non-descending). -/
theorem C6_coalesce_invariants (n : ℕ) (insts : List synapse_instance)
    (hn : ∀ x ∈ insts, x.param_values.length = n)
    (hs : List.Chain' (fun a b => synLt b a = false) insts) :
    (coalesce_fold true insts).multiplicity.sum = insts.length ∧
    List.Pairwise (fun x y => x.1 = y.1 → x.2 ≠ y.2)
      (zipped (coalesce_fold true insts)) := by
  refine ⟨coalesce_fold_sum insts, ?_⟩
  refine (coalesce_fold_entries n insts hn hs).imp ?_
  intro x y hxy heq hparam
  rcases hxy with h | ⟨_, h⟩
  · exact absurd heq (Nat.ne_of_lt h)
  · rw [hparam] at h
    rw [cmp_inst_param_refl] at h
    exact absurd h (by simp)

/-- C6, witness: four identical `expsyn`-style placements on CV 5 plus
one with a different parameter, already in sorted order.  The built
configuration has two entries, multiplicities `[4, 1]` summing to the
five placements, and the two CV-5 entries differ in their parameter
vectors. -/
theorem C6_coalesce_invariants_witness :
    (∀ x ∈ [synapse_instance.mk 5 [1] 0, synapse_instance.mk 5 [1] 1,
            synapse_instance.mk 5 [1] 2, synapse_instance.mk 5 [1] 3,
            synapse_instance.mk 5 [2] 4], x.param_values.length = 1) ∧
    List.Chain' (fun a b => synLt b a = false)
      [synapse_instance.mk 5 [1] 0, synapse_instance.mk 5 [1] 1,
       synapse_instance.mk 5 [1] 2, synapse_instance.mk 5 [1] 3,
       synapse_instance.mk 5 [2] 4] ∧
    (coalesce_fold true
      [synapse_instance.mk 5 [1] 0, synapse_instance.mk 5 [1] 1,
       synapse_instance.mk 5 [1] 2, synapse_instance.mk 5 [1] 3,
       synapse_instance.mk 5 [2] 4]).multiplicity.sum = 5 ∧
    List.Pairwise (fun x y => x.1 = y.1 → x.2 ≠ y.2)
      (zipped (coalesce_fold true
        [synapse_instance.mk 5 [1] 0, synapse_instance.mk 5 [1] 1,
         synapse_instance.mk 5 [1] 2, synapse_instance.mk 5 [1] 3,
         synapse_instance.mk 5 [2] 4])) ∧
    (coalesce_fold true
      [synapse_instance.mk 5 [1] 0, synapse_instance.mk 5 [1] 1,
       synapse_instance.mk 5 [1] 2, synapse_instance.mk 5 [1] 3,
       synapse_instance.mk 5 [2] 4]).multiplicity = [4, 1] := by
  have hn : ∀ x ∈ [synapse_instance.mk 5 [1] 0, synapse_instance.mk 5 [1] 1,
      synapse_instance.mk 5 [1] 2, synapse_instance.mk 5 [1] 3,
      synapse_instance.mk 5 [2] 4], x.param_values.length = 1 := by
    intro x hx
    fin_cases hx <;> rfl
  have hs : List.Chain' (fun a b => synLt b a = false)
      [synapse_instance.mk 5 [1] 0, synapse_instance.mk 5 [1] 1,
       synapse_instance.mk 5 [1] 2, synapse_instance.mk 5 [1] 3,
       synapse_instance.mk 5 [2] 4] := by
    refine List.chain'_cons.mpr ⟨?_, List.chain'_cons.mpr ⟨?_,
      List.chain'_cons.mpr ⟨?_, List.chain'_cons.mpr ⟨?_,
        List.chain'_singleton _⟩⟩⟩⟩ <;>
      norm_num [synLt, cmp_inst_param]
  have h := C6_coalesce_invariants 1 _ hn hs
  refine ⟨hn, hs, by simpa using h.1, h.2, ?_⟩
  norm_num [coalesce_fold, coalesce_step, cmp_inst_param, bumpLast]
  simp

theorem insertSupport_append : ∀ (cs ds : List mcable) (mask : List mcable),
    insertSupport mask (cs ++ ds) =
      match insertSupport mask cs with
      | none => none
      | some mask' => insertSupport mask' ds := by
  intro cs
  induction cs with
  | nil => intro ds mask; rfl
  | cons c cs ih =>
    intro ds mask
    simp only [List.cons_append, insertSupport]
    cases insertMask mask c with
    | none => rfl
    | some mask' => exact ih ds mask'

theorem buildConcMask_eq_flatten : ∀ (ss : List (List mcable)) (mask : List mcable),
    buildConcMask mask ss = insertSupport mask ss.flatten := by
  intro ss
  induction ss with
  | nil => intro mask; rfl
  | cons s ss ih =>
    intro mask
    simp only [List.flatten_cons, buildConcMask, insertSupport_append]
    cases insertSupport mask s with
    | none => rfl
    | some mask' => exact ih mask'

theorem insertSupport_isSome_iff : ∀ (cs mask : List mcable),
    (insertSupport mask cs).isSome ↔
      ((∀ m ∈ mask, ∀ c ∈ cs, cablesIntersect m c = false) ∧
       List.Pairwise (fun a b => cablesIntersect a b = false) cs) := by
  intro cs
  induction cs with
  | nil => intro mask; simp [insertSupport]
  | cons c cs ih =>
    intro mask
    simp only [insertSupport, insertMask]
    by_cases hhit : ∃ m ∈ mask, cablesIntersect m c = true
    · rw [if_pos (List.any_eq_true.mpr hhit)]
      simp only [Option.isSome_none, Bool.false_eq_true, false_iff]
      intro ⟨hmask, _⟩
      rcases hhit with ⟨m, hm, hint⟩
      have := hmask m hm c (List.mem_cons_self c cs)
      rw [this] at hint
      exact absurd hint (by simp)
    · have hno : ∀ m ∈ mask, cablesIntersect m c = false := by
        intro m hm
        by_contra hc
        exact hhit ⟨m, hm, by revert hc; cases cablesIntersect m c <;> simp⟩
      rw [if_neg (by rw [List.any_eq_true]; exact hhit)]
      rw [ih (mask ++ [c])]
      constructor
      · rintro ⟨hmc, hpw⟩
        refine ⟨?_, List.pairwise_cons.mpr ⟨?_, hpw⟩⟩
        · intro m hm x hx
          rcases List.mem_cons.mp hx with hx | hx
          · exact hx ▸ hno m hm
          · exact hmc m (List.mem_append_left _ hm) x hx
        · intro x hx
          exact hmc c (List.mem_append_right _ (List.mem_singleton_self _)) x hx
      · rintro ⟨hmc, hpw⟩
        rcases List.pairwise_cons.mp hpw with ⟨hc1, hpw'⟩
        refine ⟨?_, hpw'⟩
        intro m hm x hx
        rcases List.mem_append.mp hm with hm | hm
        · exact hmc m hm x (List.mem_cons_of_mem c hx)
        · rw [List.mem_singleton.mp hm]
          exact hc1 x hx

/-- C7: building the per-ion concentration-writer mask succeeds exactly
when no two cables of distinct writer supports intersect; when two
writer regions on the same ion overlap, the construction fails (and the
source raises the configuration error).  The hypothesis records that
each single mechanism's support is internally non-overlapping, which
holds by construction (`support` is itself an `mcable_map`). -/
theorem C7_conc_writer_overlap (supports : List (List mcable))
    (hin : ∀ s ∈ supports, List.Pairwise (fun a b => cablesIntersect a b = false) s) :
    (buildConcMask [] supports).isSome ↔
      List.Pairwise (fun s t => ∀ a ∈ s, ∀ b ∈ t, cablesIntersect a b = false)
        supports := by
  rw [buildConcMask_eq_flatten, insertSupport_isSome_iff]
  simp only [List.not_mem_nil, false_implies, implies_true, true_and]
  rw [List.pairwise_flatten]
  constructor
  · intro h
    exact h.2
  · intro h
    exact ⟨hin, h⟩

/-- C7, witness: two writer mechanisms with disjoint single-cable
supports on one branch; the mask construction succeeds. -/
theorem C7_conc_writer_overlap_witness :
    (∀ s ∈ [[mcable.mk 0 0 (1/4)], [mcable.mk 0 (1/2) 1]],
      List.Pairwise (fun a b => cablesIntersect a b = false) s) ∧
    ((buildConcMask [] [[mcable.mk 0 0 (1/4)], [mcable.mk 0 (1/2) 1]]).isSome ↔
      List.Pairwise (fun s t => ∀ a ∈ s, ∀ b ∈ t, cablesIntersect a b = false)
        [[mcable.mk 0 0 (1/4)], [mcable.mk 0 (1/2) 1]]) ∧
    (buildConcMask [] [[mcable.mk 0 0 (1/4)], [mcable.mk 0 (1/2) 1]]).isSome = true := by
  have hin : ∀ s ∈ [[mcable.mk 0 0 (1/4)], [mcable.mk 0 (1/2) 1]],
      List.Pairwise (fun a b => cablesIntersect a b = false) s := by
    intro s hs
    fin_cases hs <;> simp
  refine ⟨hin, C7_conc_writer_overlap _ hin, ?_⟩
  norm_num [buildConcMask, insertSupport, insertMask, cablesIntersect]

theorem append_offset_length (ctr : List ℤ) (offset : ℤ) (rhs : List ℤ) :
    (append_offset ctr offset rhs).length = ctr.length + rhs.length := by
  simp [append_offset]

theorem append_offset_assoc (a b c : List ℤ) (o1 o2 : ℤ)
    (ho1 : 0 ≤ o1) (ho2 : 0 ≤ o2) (hc : ∀ x ∈ c, x = -1 ∨ 0 ≤ x) :
    append_offset (append_offset a o1 b) (o1 + o2) c
      = append_offset a o1 (append_offset b o2 c) := by
  simp only [append_offset, List.map_append, List.map_map, List.append_assoc]
  congr 2
  apply List.map_congr_left
  intro x hx
  rcases hc x hx with hx1 | hx1
  · subst hx1
    norm_num
  · simp only [Function.comp_apply]
    have h1 : ¬(x + 1 = 0) := by omega
    have h2 : ¬(o2 + x + 1 = 0) := by omega
    rw [if_neg h1, if_neg h1, if_neg h2]
    ring

/-- For non-negative right-hand entries the `npos` guard in
`append_offset` is inert. -/
theorem append_offset_nonneg (ctr : List ℤ) (offset : ℤ) (rhs : List ℤ)
    (h : ∀ x ∈ rhs, 0 ≤ x) :
    append_offset ctr offset rhs = ctr ++ rhs.map (fun x => offset + x) := by
  simp only [append_offset]
  congr 1
  apply List.map_congr_left
  intro x hx
  rw [if_neg (by have := h x hx; omega)]

theorem getLastD_append_right (l m : List ℤ) (h : m ≠ []) :
    (l ++ m).getLastD 0 = m.getLastD 0 := by
  rw [List.getLastD_eq_getLast?, List.getLastD_eq_getLast?, List.getLast?_append]
  cases hm : m.getLast? with
  | none =>
    exact absurd (List.getLast?_eq_none_iff.mp hm) h
  | some x => rfl

theorem getLastD_nonneg (l : List ℤ) (h : ∀ x ∈ l, 0 ≤ x) : 0 ≤ l.getLastD 0 := by
  rcases List.mem_cons.mp (List.getLastD_mem_cons l 0) with hm | hm
  · exact le_of_eq hm.symm
  · exact h _ hm

theorem append_divs_nil_left (l : List ℤ) : append_divs [] l = l := by
  cases l <;> rfl

theorem append_divs_nil_right (l : List ℤ) : append_divs l [] = l := by
  cases l <;> rfl

theorem append_divs_cons (l : List ℤ) (hl : l ≠ []) (r0 : ℤ) (rt : List ℤ) :
    append_divs l (r0 :: rt) = append_offset l (l.getLastD 0) rt := by
  cases l with
  | nil => exact absurd rfl hl
  | cons x xs => rfl

theorem append_divs_of_ne_nil (l r : List ℤ) (hl : l ≠ []) (hr : r ≠ []) :
    append_divs l r = append_offset l (l.getLastD 0) r.tail := by
  cases r with
  | nil => exact absurd rfl hr
  | cons r0 rt => exact append_divs_cons l hl r0 rt

theorem append_offset_ne_nil (l : List ℤ) (o : ℤ) (r : List ℤ) (hl : l ≠ []) :
    append_offset l o r ≠ [] := by
  simp [append_offset, hl]

theorem append_offset_tail (b0 : ℤ) (bt : List ℤ) (o : ℤ) (r : List ℤ) :
    (append_offset (b0 :: bt) o r).tail
      = bt ++ r.map (fun x => if x + 1 = 0 then x else o + x) := by
  simp [append_offset]

theorem getLastD_cons_cons (x y : ℤ) (l : List ℤ) :
    (x :: y :: l).getLastD 0 = (y :: l).getLastD 0 := by
  rw [List.getLastD_eq_getLast?, List.getLastD_eq_getLast?, List.getLast?_cons_cons]

theorem getLastD_map_add (o : ℤ) (y : ℤ) (l : List ℤ) :
    ((y :: l).map (fun x => o + x)).getLastD 0 = o + (y :: l).getLastD 0 := by
  rw [List.getLastD_eq_getLast?, List.getLastD_eq_getLast?, List.getLast?_map]
  cases hbl : (y :: l).getLast? with
  | none => exact absurd (List.getLast?_eq_none_iff.mp hbl) (by simp)
  | some x => rfl

theorem getLastD_append_offset (a : List ℤ) (o : ℤ) (B : List ℤ)
    (hB : B ≠ []) (hpos : ∀ x ∈ B, 0 ≤ x) :
    (append_offset a o B).getLastD 0 = o + B.getLastD 0 := by
  rw [append_offset_nonneg _ _ _ hpos]
  rw [getLastD_append_right _ _ (by simpa using hB)]
  cases B with
  | nil => exact absurd rfl hB
  | cons y l => exact getLastD_map_add o y l

theorem append_divs_assoc (a b c : List ℤ)
    (ha : divs_wf a) (hb : divs_wf b) (hc : divs_wf c) :
    append_divs (append_divs a b) c = append_divs a (append_divs b c) := by
  cases a with
  | nil => rw [append_divs_nil_left, append_divs_nil_left]
  | cons a0 at' =>
    cases b with
    | nil => rw [append_divs_nil_right, append_divs_nil_left]
    | cons b0 bt =>
      cases c with
      | nil => rw [append_divs_nil_right, append_divs_nil_right]
      | cons c0 ct =>
        have hane : (a0 :: at') ≠ [] := by simp
        have hbne : (b0 :: bt) ≠ [] := by simp
        have hb0 : b0 = 0 := by
          rcases hb.1 with h | h
          · simp at h
          · simpa using h
        have hbpos : ∀ x ∈ bt, (0:ℤ) ≤ x :=
          fun x hx => hb.2 x (List.mem_cons_of_mem b0 hx)
        have hcpos : ∀ x ∈ ct, (0:ℤ) ≤ x :=
          fun x hx => hc.2 x (List.mem_cons_of_mem c0 hx)
        cases bt with
        | nil =>
          -- b = [0]: appending it is a no-op on the left, and appending
          -- to it only re-heads the right divisions with 0
          subst hb0
          rw [append_divs_cons _ hane 0 []]
          rw [show append_offset (a0 :: at') ((a0 :: at').getLastD 0) [] = a0 :: at' by
            simp [append_offset]]
          have hbc : append_divs [(0:ℤ)] (c0 :: ct) = 0 :: ct := by
            rw [append_divs_cons _ (by simp) c0 ct]
            rw [show ([(0:ℤ)].getLastD 0) = 0 from rfl]
            rw [show append_offset [(0:ℤ)] 0 ct = [(0:ℤ)] ++ ct.map (fun x => x) by
              simp only [append_offset]
              congr 1
              apply List.map_congr_left
              intro x _
              by_cases hx1 : x + 1 = 0
              · rw [if_pos hx1]
              · rw [if_neg hx1, zero_add]]
            simp
          rw [hbc]
          rw [append_divs_cons _ hane c0 ct, append_divs_cons _ hane 0 ct]
        | cons b1 bt' =>
          have hb1pos : ∀ x ∈ b1 :: bt', (0:ℤ) ≤ x := fun x hx => hbpos x hx
          have hbL : (0:ℤ) ≤ (b1 :: bt').getLastD 0 := getLastD_nonneg _ hb1pos
          have haL : (0:ℤ) ≤ (a0 :: at').getLastD 0 := getLastD_nonneg _ ha.2
          -- left side: two nested offsets
          rw [append_divs_cons _ hane b0 (b1 :: bt')]
          rw [append_divs_of_ne_nil _ _
            (append_offset_ne_nil _ _ _ hane) (by simp)]
          rw [getLastD_append_offset _ _ _ (by simp) hb1pos]
          rw [show (c0 :: ct).tail = ct from rfl]
          -- right side: offset of an offset
          rw [append_divs_of_ne_nil _ _ hbne (by simp)]
          rw [getLastD_cons_cons]
          rw [show (c0 :: ct).tail = ct from rfl]
          rw [append_divs_of_ne_nil _ _ hane
            (append_offset_ne_nil _ _ _ hbne)]
          rw [append_offset_tail]
          rw [show (b1 :: bt') ++ ct.map
              (fun x => if x + 1 = 0 then x else (b1 :: bt').getLastD 0 + x)
              = append_offset (b1 :: bt') ((b1 :: bt').getLastD 0) ct from rfl]
          exact append_offset_assoc (a0 :: at') (b1 :: bt') ct _ _ haL hbL
            (fun x hx => Or.inr (hcpos x hx))

theorem append_geometry_right_zero (g r : cv_geometry) (h : r.n_cell = 0) :
    append_geometry g r = g := by
  simp [append_geometry, h]

theorem append_geometry_left_zero (g r : cv_geometry)
    (hr : r.n_cell ≠ 0) (hg : g.n_cell = 0) : append_geometry g r = r := by
  simp [append_geometry, hr, hg]

theorem append_geometry_main (g r : cv_geometry)
    (hg : g.n_cell ≠ 0) (hr : r.n_cell ≠ 0) :
    append_geometry g r
      = { cv_cables := g.cv_cables ++ r.cv_cables
          cv_cables_divs := append_divs g.cv_cables_divs r.cv_cables_divs
          cv_parent := append_offset g.cv_parent (g.size : ℤ) r.cv_parent
          cv_children := append_offset g.cv_children (g.size : ℤ) r.cv_children
          cv_children_divs := append_divs g.cv_children_divs r.cv_children_divs
          cv_to_cell := append_offset g.cv_to_cell (g.n_cell : ℤ) r.cv_to_cell
          cell_cv_divs := append_divs g.cell_cv_divs r.cell_cv_divs
          branch_cv_map := g.branch_cv_map ++ r.branch_cv_map } := by
  unfold append_geometry
  rw [if_neg hr, if_neg hg]

theorem append_divs_length (l r : List ℤ) (hl : l ≠ []) (hr : r ≠ []) :
    (append_divs l r).length = l.length + r.length - 1 := by
  rw [append_divs_of_ne_nil l r hl hr, append_offset_length]
  cases r with
  | nil => exact absurd rfl hr
  | cons r0 rt => simp

theorem n_cell_pos_divs_ne_nil (g : cv_geometry) (h : g.n_cell ≠ 0) :
    g.cell_cv_divs ≠ [] := by
  intro hc
  rw [cv_geometry.n_cell, hc] at h
  simp at h

theorem n_cell_append (g r : cv_geometry) (hg : g.n_cell ≠ 0) (hr : r.n_cell ≠ 0) :
    (append_geometry g r).n_cell = g.n_cell + r.n_cell := by
  have hgd := n_cell_pos_divs_ne_nil g hg
  have hrd := n_cell_pos_divs_ne_nil r hr
  have hg2 : 2 ≤ g.cell_cv_divs.length := by
    rw [cv_geometry.n_cell] at hg
    rcases hn : g.cell_cv_divs.length with _ | _ | n
    · exact absurd (List.length_eq_zero.mp hn) hgd
    · rw [hn] at hg; simp at hg
    · omega
  have hr2 : 2 ≤ r.cell_cv_divs.length := by
    rw [cv_geometry.n_cell] at hr
    rcases hn : r.cell_cv_divs.length with _ | _ | n
    · exact absurd (List.length_eq_zero.mp hn) hrd
    · rw [hn] at hr; simp at hr
    · omega
  unfold append_geometry
  rw [if_neg hr, if_neg hg]
  simp only [cv_geometry.n_cell]
  rw [append_divs_length _ _ hgd hrd]
  omega

theorem size_append (g r : cv_geometry) (hg : g.n_cell ≠ 0) (hr : r.n_cell ≠ 0) :
    (append_geometry g r).size = g.size + r.size := by
  unfold append_geometry
  rw [if_neg hr, if_neg hg]
  simp [cv_geometry.size, append_offset_length]

/-- C9: `append` on CV geometries is associative, field-wise, for
well-formed geometries (division vectors starting at 0 with
non-negative offsets, index vectors holding `-1` or valid indices):
the CV indices of each constituent appear offset by the sizes of the
geometries appended before it, identically on both sides. -/
theorem C9_append_geometry_assoc (A B C : cv_geometry)
    (hA : geom_wf A) (hB : geom_wf B) (hC : geom_wf C) :
    append_geometry (append_geometry A B) C
      = append_geometry A (append_geometry B C) := by
  by_cases hc : C.n_cell = 0
  · rw [append_geometry_right_zero B C hc, append_geometry_right_zero _ C hc]
  · by_cases hb : B.n_cell = 0
    · rw [append_geometry_left_zero B C hc hb, append_geometry_right_zero A B hb]
    · by_cases ha : A.n_cell = 0
      · have hBC : (append_geometry B C).n_cell ≠ 0 := by
          rw [n_cell_append B C hb hc]; omega
        rw [append_geometry_left_zero A B hb ha,
          append_geometry_left_zero A _ hBC ha]
      · have hAB : (append_geometry A B).n_cell ≠ 0 := by
          rw [n_cell_append A B ha hb]; omega
        have hBC : (append_geometry B C).n_cell ≠ 0 := by
          rw [n_cell_append B C hb hc]; omega
        have hsz : ((append_geometry A B).size : ℤ) = (A.size : ℤ) + (B.size : ℤ) := by
          rw [size_append A B ha hb]; push_cast; ring
        have hnc : ((append_geometry A B).n_cell : ℤ)
            = (A.n_cell : ℤ) + (B.n_cell : ℤ) := by
          rw [n_cell_append A B ha hb]; push_cast; ring
        -- expand the outer appends (all guards are in the nonzero branch)
        rw [append_geometry_main (append_geometry A B) C hAB hc,
          append_geometry_main A (append_geometry B C) ha hBC]
        rw [hsz, hnc]
        -- expand the inner appends
        rw [append_geometry_main A B ha hb, append_geometry_main B C hb hc]
        simp only [cv_geometry.mk.injEq]
        refine ⟨List.append_assoc _ _ _,
          append_divs_assoc _ _ _ hA.1 hB.1 hC.1,
          append_offset_assoc _ _ _ _ _ (Int.natCast_nonneg _)
            (Int.natCast_nonneg _) hC.2.2.2.1,
          append_offset_assoc _ _ _ _ _ (Int.natCast_nonneg _)
            (Int.natCast_nonneg _) hC.2.2.2.2.1,
          append_divs_assoc _ _ _ hA.2.1 hB.2.1 hC.2.1,
          append_offset_assoc _ _ _ _ _ (Int.natCast_nonneg _)
            (Int.natCast_nonneg _) hC.2.2.2.2.2,
          append_divs_assoc _ _ _ hA.2.2.1 hB.2.2.1 hC.2.2.1,
          List.append_assoc _ _ _⟩

/-- C9, witness: three copies of the one-CV geometry associate. -/
theorem C9_append_geometry_assoc_witness :
    geom_wf unitGeom ∧
    append_geometry (append_geometry unitGeom unitGeom) unitGeom
      = append_geometry unitGeom (append_geometry unitGeom unitGeom) := by
  have hwf : geom_wf unitGeom := by
    refine ⟨⟨Or.inr rfl, ?_⟩, ⟨Or.inr rfl, ?_⟩, ⟨Or.inr rfl, ?_⟩, ?_, ?_, ?_⟩ <;>
      · intro x hx
        fin_cases hx <;> simp [unitGeom]
  exact ⟨hwf, C9_append_geometry_assoc unitGeom unitGeom unitGeom hwf hwf hwf⟩

/-- C8: for every (spike, connection) pair with matching source, the
generated event is
`spike_event{target = c.destination, time = s.time + c.delay, weight = c.weight}`. -/
theorem C8_make_event (c : connection) (s : spike) (h : s.source = c.source) :
    make_event c s =
      { target := c.destination, time := s.time + c.delay, weight := c.weight } :=
  rfl

/-- C8, witness: a concrete matching spike/connection pair. -/
theorem C8_make_event_witness :
    (spike.mk (2, 1) (1/2)).source = (connection.mk (2, 1) 7 (3/2) 2).source ∧
    make_event (connection.mk (2, 1) 7 (3/2) 2) (spike.mk (2, 1) (1/2)) =
      { target := 7, time := 5/2, weight := 3/2 } := by
  refine ⟨rfl, ?_⟩
  rw [C8_make_event (connection.mk (2, 1) 7 (3/2) 2) (spike.mk (2, 1) (1/2)) rfl]
  norm_num

end Arbor
